import Mathlib

/-!
Shallow embedding of the ensync core: the block-transfer layer
(`src/block_xfer.rs`), the cryptographic envelope and directory-version
cipher (`src/server/crypt.rs`), and the key-management layer
(`src/server/keymgmt.rs`), together with theorems settling the claims of
the specification.

Modelling conventions:
* bytes are natural numbers, byte strings are lists (`Bytes`);
* the SHA-3-256 permutation and the AES-128 block cipher live in external
  crates (`keccak`, `rust-crypto`) and are taken as explicit function
  parameters; a Keccak context is the list of bytes absorbed so far and
  `finalize` applies the parameter to it;
* byte sources (`Read`) are lists: a read returns `min(space, remaining)`
  bytes, `Interrupted` retries are invisible at this level; byte sinks
  (`Write`) are modelled by returning the written bytes;
* loops that consume at least one source byte per iteration are written
  with an explicit iteration bound (`fuel`); the top-level wrappers supply
  `length + 1`, which is always sufficient, so the wrappers compute the
  exact behaviour of the Rust loops.
-/

namespace Ensync

/-- Byte strings; each element is one byte. -/
abbrev Bytes := List Nat

deriving instance DecidableEq for Except

/-- Errors of the block-transfer layer (`block_xfer::Error`): an I/O error
carrying the caller's error value, or an HMAC mismatch. -/
inductive BXError (ε : Type) where
  | io (e : ε)
  | invalidHmac
deriving DecidableEq

/-- `block_xfer::BlockList`: total hash, ordered block hashes, byte size. -/
structure BlockList where
  total : Bytes
  blocks : List Bytes
  size : Nat
deriving DecidableEq

/-- Main loop of `stream_to_blocks` (`block_xfer.rs` lines 136-161),
recursing over the remaining source bytes.  `buf` is the persistent
`block_data` buffer (length `B`, initially zero-filled): each round
overwrites its first `off` bytes with the bytes just read, where
`off = min B src.length` is what the inner read loop collects, and the
code hands the sink the WHOLE buffer (`block_out(&hash, &block_data)`)
while the hash covers only `block_data[0..off]`.  `tctx` is the byte list
absorbed so far by the running total Keccak context.  `fuel` bounds the
number of loop iterations; every iteration consumes at least one source
byte, so the `src.length + 1` supplied by `stream_to_blocks` is enough and
the zero-fuel branch (which finalizes like the EOF branch) is never the
deciding one there. -/
def s2bGo (sha : Bytes → Bytes) (blockOut : σ → Bytes → Bytes → Except ε σ)
    (B : Nat) (secret : Bytes) :
    Nat → Bytes → Bytes → List Bytes → Nat → Bytes → σ →
    Except ε (BlockList × σ)
  | 0, _, _, blocks, size, tctx, st =>
      .ok ({ total := sha tctx, blocks := blocks, size := size }, st)
  | fuel + 1, src, buf, blocks, size, tctx, st =>
      let off := min B src.length
      if off = 0 then
        .ok ({ total := sha tctx, blocks := blocks, size := size }, st)
      else
        let chunk := src.take off
        let hsh := sha (secret ++ chunk)
        let buf' := chunk ++ buf.drop off
        match blockOut st hsh buf' with
        | .error e => .error e
        | .ok st' =>
            s2bGo sha blockOut B secret fuel (src.drop off) buf'
              (blocks ++ [hsh]) (size + off) (tctx ++ hsh) st'

/-- `stream_to_blocks` (`block_xfer.rs` lines 119-169).  The total Keccak
context starts with the secret absorbed; the buffer starts as `block_size`
zero bytes (`block_data.resize(block_size, 0)`); the sink is a
state-passing callback which may fail, and the final state is returned
along with the `BlockList`. -/
def stream_to_blocks (sha : Bytes → Bytes)
    (blockOut : σ → Bytes → Bytes → Except ε σ) (B : Nat) (secret : Bytes)
    (src : Bytes) (st : σ) : Except ε (BlockList × σ) :=
  s2bGo sha blockOut B secret (src.length + 1) src (List.replicate B 0)
    [] 0 secret st

/-- Per-block loop of `blocks_to_stream` (`block_xfer.rs` lines 209-231):
fetch each block, stream its bytes to the output while absorbing them into
a fresh Keccak context seeded with the secret, and compare the finalized
hash with the listed id after all the block's bytes have been written.
`written` accumulates the bytes written to the output sink. -/
def b2sGo (sha : Bytes → Bytes) (fetch : Bytes → Except ε Bytes)
    (secret : Bytes) :
    List Bytes → Bytes → Except (BXError ε) Unit × Bytes
  | [], written => (.ok (), written)
  | bid :: rest, written =>
      match fetch bid with
      | .error e => (.error (.io e), written)
      | .ok data =>
          if sha (secret ++ data) = bid then
            b2sGo sha fetch secret rest (written ++ data)
          else
            (.error .invalidHmac, written ++ data)

/-- `blocks_to_stream` (`block_xfer.rs` lines 185-234).  First the total is
recomputed from the member hashes (Keccak seeded with the secret, then each
hash absorbed in order) and compared with `input.total`; on mismatch the
function fails with `InvalidHmac` having written nothing and fetched
nothing.  Returns the result together with every byte written to the
output sink. -/
def blocks_to_stream (sha : Bytes → Bytes) (input : BlockList)
    (fetch : Bytes → Except ε Bytes) (secret : Bytes) :
    Except (BXError ε) Unit × Bytes :=
  if sha (secret ++ input.blocks.flatten) = input.total then
    b2sGo sha fetch secret input.blocks []
  else
    (.error .invalidHmac, [])

/-- Successive chunks of at most `B` bytes of `src` — the block payloads
the read loop of `stream_to_blocks` collects (empty for `B = 0`, matching
the code, whose read loop collects zero bytes then). -/
def chunkifyGo (B : Nat) : Nat → Bytes → List Bytes
  | 0, _ => []
  | fuel + 1, src =>
      if min B src.length = 0 then []
      else src.take B :: chunkifyGo B fuel (src.drop B)

/-- Chunk list of a source, with sufficient fuel. -/
def chunkify (B : Nat) (src : Bytes) : List Bytes :=
  chunkifyGo B (src.length + 1) src

/-- Sink that stores every `(hash, bytes)` pair handed to it, never
failing — the caller of the claims C1/C2/C10. -/
def storeSink (s : List (Bytes × Bytes)) (h b : Bytes) :
    Except Unit (List (Bytes × Bytes)) :=
  Except.ok (s ++ [(h, b)])

/-- If every listed block can be fetched but some fetched block hashes
differently from its listed id, the per-block loop ends in `InvalidHmac`. -/
theorem b2sGo_mismatch {ε : Type} (sha : Bytes → Bytes)
    (fetch : Bytes → Except ε Bytes) (secret : Bytes)
    (blocks : List Bytes) :
    ∀ written : Bytes,
      (∀ h, h ∈ blocks → ∃ d, fetch h = Except.ok d) →
      (∃ h d, h ∈ blocks ∧ fetch h = Except.ok d ∧ sha (secret ++ d) ≠ h) →
      ∃ w, b2sGo sha fetch secret blocks written
        = (Except.error BXError.invalidHmac, w) := by
  induction blocks with
  | nil =>
      intro written _ hex
      obtain ⟨h, d, hm, _, _⟩ := hex
      simp at hm
  | cons bid rest ih =>
      intro written hall hex
      obtain ⟨d0, hd0⟩ := hall bid (by simp)
      by_cases heq : sha (secret ++ d0) = bid
      · obtain ⟨h, d, hm, hfd, hne⟩ := hex
        have hmem : h ∈ rest := by
          rcases List.mem_cons.mp hm with rfl | hr
          · rw [hfd] at hd0
            obtain rfl : d = d0 := by injection hd0
            exact absurd heq hne
          · exact hr
        obtain ⟨w, hw⟩ := ih (written ++ d0)
          (fun h hh => hall h (List.mem_cons_of_mem _ hh))
          ⟨h, d, hmem, hfd, hne⟩
        refine ⟨w, ?_⟩
        simpa [b2sGo, hd0, heq] using hw
      · refine ⟨written ++ d0, ?_⟩
        simp [b2sGo, hd0, heq]

/-- If the per-block loop succeeds, every fetched block's bytes hashed
(secret-prefixed) to exactly the listed id. -/
theorem b2sGo_ok {ε : Type} (sha : Bytes → Bytes)
    (fetch : Bytes → Except ε Bytes) (secret : Bytes) (blocks : List Bytes) :
    ∀ (written w : Bytes),
      b2sGo sha fetch secret blocks written = (Except.ok (), w) →
      ∀ h, h ∈ blocks → ∀ d, fetch h = Except.ok d →
        sha (secret ++ d) = h := by
  induction blocks with
  | nil => intro written w _ h hm; simp at hm
  | cons bid rest ih =>
      intro written w hrun h hm d hfd
      rcases hf : fetch bid with e | d0
      · simp [b2sGo, hf] at hrun
      · by_cases heq : sha (secret ++ d0) = bid
        · simp only [b2sGo, hf, heq, if_pos] at hrun
          rcases List.mem_cons.mp hm with rfl | hr
          · rw [hfd] at hf
            obtain rfl : d = d0 := by injection hf
            exact heq
          · exact ih (written ++ d0) w hrun h hr d hfd
        · simp [b2sGo, hf, heq] at hrun

/-- C1 [code bug]: concrete run of the pipeline on `S = [5]`, `B = 2`,
empty secret, hash construction instantiated with the identity function.
`stream_to_blocks` reads the single byte `5` and reports
`size = 1 = |S|`, but hands the sink the whole 2-byte buffer `[5, 0]`
(`block_out(&hash, &block_data)` at `block_xfer.rs:157`) while the listed
hash covers only the byte actually read; deblocking from the stored pairs
therefore fails with `InvalidHmac` and writes `[5, 0] ≠ S`, contradicting
the claimed round trip. -/
theorem C1_roundtrip_fails_on_final_short_block :
    stream_to_blocks (fun l => l) storeSink 2 [] [5] []
      = Except.ok
          ({ total := [5], blocks := [[5]], size := 1 }, [([5], [5, 0])])
    ∧ blocks_to_stream (fun l => l)
        { total := [5], blocks := [[5]], size := 1 }
        (fun h => if h = [5] then (Except.ok [5, 0] : Except Unit Bytes)
                  else Except.error ()) []
      = (Except.error BXError.invalidHmac, [5, 0])
    ∧ ([5, 0] : Bytes) ≠ [5] := by
  refine ⟨by decide, by decide, by decide⟩

/-- C2 [code bug]: on the same run, the pair handed to the sink is
`([5], [5, 0])`: the bytes handed over (`[5, 0]`, the whole buffer) are
not the bytes read from the source for that block (`[5]`), and the hash
argument is not the keyed hash of the handed bytes
(`sha (secret ++ [5, 0]) = [5, 0] ≠ [5]`). -/
theorem C2_sink_gets_whole_buffer_not_block_bytes :
    stream_to_blocks (fun l => l) storeSink 2 [] [5] []
      = Except.ok
          ({ total := [5], blocks := [[5]], size := 1 }, [([5], [5, 0])])
    ∧ (fun l => l) (([] : Bytes) ++ [5, 0]) ≠ [5]
    ∧ (fun l => l) (([] : Bytes) ++ [5]) = [5] := by
  refine ⟨by decide, by decide, by decide⟩

/-- C3: a `BlockList` whose `total` differs from the recomputed keyed hash
of its member hashes makes `blocks_to_stream` fail with `InvalidHmac`
having written nothing, independently of the fetch callback (so before any
block is fetched); and whenever every listed block is fetchable but some
fetched block's bytes hash differently from its listed id, the run ends in
`InvalidHmac`. -/
theorem C3_tamper_detection {ε : Type} (sha : Bytes → Bytes)
    (secret : Bytes) (input : BlockList) (fetch : Bytes → Except ε Bytes) :
    (sha (secret ++ input.blocks.flatten) ≠ input.total →
      blocks_to_stream sha input fetch secret
        = (Except.error BXError.invalidHmac, []) ∧
      ∀ fetch' : Bytes → Except ε Bytes,
        blocks_to_stream sha input fetch' secret
          = (Except.error BXError.invalidHmac, [])) ∧
    ((∀ h, h ∈ input.blocks → ∃ d, fetch h = Except.ok d) →
     (∃ h d, h ∈ input.blocks ∧ fetch h = Except.ok d ∧
        sha (secret ++ d) ≠ h) →
      ∃ w, blocks_to_stream sha input fetch secret
        = (Except.error BXError.invalidHmac, w)) := by
  constructor
  · intro hne
    constructor
    · simp [blocks_to_stream, hne]
    · intro fetch'
      simp [blocks_to_stream, hne]
  · intro hall hex
    by_cases htot : sha (secret ++ input.blocks.flatten) = input.total
    · obtain ⟨w, hw⟩ := b2sGo_mismatch sha fetch secret input.blocks [] hall hex
      exact ⟨w, by simp [blocks_to_stream, htot, hw]⟩
    · exact ⟨[], by simp [blocks_to_stream, htot]⟩

/-- Witness for C3: concrete mismatching manifests. -/
theorem C3_tamper_detection_witness :
    (blocks_to_stream (fun l => l) { total := [9], blocks := [], size := 0 }
        (fun _ => (Except.error () : Except Unit Bytes)) []
      = (Except.error BXError.invalidHmac, [])) ∧
    (∃ w, blocks_to_stream (fun l => l)
        { total := [1], blocks := [[1]], size := 1 }
        (fun _ => (Except.ok [2] : Except Unit Bytes)) []
      = (Except.error BXError.invalidHmac, w)) := by
  constructor
  · exact ((C3_tamper_detection (fun l => l) []
      { total := [9], blocks := [], size := 0 } _).1 (by decide)).1
  · exact (C3_tamper_detection (fun l => l) []
      { total := [1], blocks := [[1]], size := 1 } _).2
      (fun h _ => ⟨[2], rfl⟩) ⟨[1], [2], by decide, rfl, by decide⟩

theorem take_min_self (l : Bytes) (B : Nat) :
    l.take (min B l.length) = l.take B := by
  rcases Nat.le_total B l.length with h | h
  · rw [Nat.min_eq_left h]
  · rw [Nat.min_eq_right h, List.take_length, List.take_of_length_le h]

theorem drop_min_self (l : Bytes) (B : Nat) :
    l.drop (min B l.length) = l.drop B := by
  rcases Nat.le_total B l.length with h | h
  · rw [Nat.min_eq_left h]
  · rw [Nat.min_eq_right h, List.drop_length, List.drop_eq_nil_of_le h]

theorem chunkifyGo_fuel_eq (B : Nat) :
    ∀ fuel fuel' (src : Bytes), src.length < fuel → src.length < fuel' →
      chunkifyGo B fuel src = chunkifyGo B fuel' src := by
  intro fuel
  induction fuel with
  | zero => intro fuel' src h _; omega
  | succ fuel ih =>
      intro fuel' src h h'
      cases fuel' with
      | zero => omega
      | succ fuel' =>
          by_cases h0 : min B src.length = 0
          · simp [chunkifyGo, h0]
          · have hd : (src.drop B).length < fuel := by
              simp only [List.length_drop]; omega
            have hd' : (src.drop B).length < fuel' := by
              simp only [List.length_drop]; omega
            simp only [chunkifyGo, if_neg h0]
            rw [ih fuel' (src.drop B) hd hd']

/-- Closed form of the `stream_to_blocks` loop for a never-failing sink
and a positive block size: the listed hashes are the secret-prefixed
hashes of the successive chunks, the running total context holds the
concatenation of those hashes, and the size grows by the source length. -/
theorem s2bGo_closed {σ ε : Type} (sha : Bytes → Bytes)
    (blockOut : σ → Bytes → Bytes → Except ε σ) (B : Nat) (secret : Bytes)
    (hB : 1 ≤ B)
    (hok : ∀ s h b, ∃ s', blockOut s h b = Except.ok s') :
    ∀ (fuel : Nat) (src buf : Bytes) (blocks : List Bytes) (size : Nat)
      (tctx : Bytes) (st : σ), src.length < fuel →
      ∃ st',
        s2bGo sha blockOut B secret fuel src buf blocks size tctx st
          = Except.ok
              ({ total := sha (tctx ++
                   ((chunkifyGo B fuel src).map
                     (fun c => sha (secret ++ c))).flatten),
                 blocks := blocks ++ (chunkifyGo B fuel src).map
                     (fun c => sha (secret ++ c)),
                 size := size + src.length }, st') := by
  intro fuel
  induction fuel with
  | zero => intro src _ _ _ _ _ h; omega
  | succ fuel ih =>
      intro src buf blocks size tctx st h
      by_cases h0 : min B src.length = 0
      · have hlen : src.length = 0 := by omega
        have hsrc : src = [] := List.eq_nil_of_length_eq_zero hlen
        subst hsrc
        exact ⟨st, by simp [s2bGo, chunkifyGo]⟩
      · obtain ⟨st', hbo⟩ := hok st
          (sha (secret ++ src.take (min B src.length)))
          (src.take (min B src.length) ++ buf.drop (min B src.length))
        have hstep : (src.drop (min B src.length)).length < fuel := by
          simp only [List.length_drop]; omega
        obtain ⟨st'', hrec⟩ := ih (src.drop (min B src.length))
          (src.take (min B src.length) ++ buf.drop (min B src.length))
          (blocks ++ [sha (secret ++ src.take (min B src.length))])
          (size + min B src.length)
          (tctx ++ sha (secret ++ src.take (min B src.length))) st' hstep
        refine ⟨st'', ?_⟩
        simp only [s2bGo, if_neg h0, hbo]
        rw [hrec]
        rw [take_min_self, drop_min_self] at *
        simp only [chunkifyGo, if_neg h0, List.map_cons, List.flatten_cons,
          List.length_drop, List.append_assoc, List.cons_append,
          List.nil_append, List.singleton_append]
        refine congrArg _ (congrArg (·, st'') ?_)
        have hsz : size + min B src.length + (src.length - B)
            = size + src.length := by omega
        simp [hsz]

/-- C10: the block layer's keyed hash is the prefix-keyed SHA-3
construction, not an RFC-2104 HMAC.  For a never-failing sink and
`B ≥ 1`: (i) every listed per-block hash is `sha (secret ++ chunk)` for
the corresponding block payload, and `total = sha (secret ++ h1 ++ … ++
hn)` over the member hashes in order; (ii) an empty source yields
`total = sha secret` and no blocks; (iii) whenever `blocks_to_stream`
succeeds it has recomputed the very same quantities: its manifest check
equates `input.total` with `sha (secret ++ flatten blocks)` and each
fetched block's bytes hash (secret-prefixed) to the listed id. -/
theorem C10_prefix_keyed_sha3 {σ ε : Type} (sha : Bytes → Bytes)
    (blockOut : σ → Bytes → Bytes → Except ε σ) (B : Nat)
    (secret src : Bytes) (st : σ) (hB : 1 ≤ B)
    (hok : ∀ s h b, ∃ s', blockOut s h b = Except.ok s') :
    (∃ st',
      stream_to_blocks sha blockOut B secret src st
        = Except.ok
            ({ total := sha (secret ++
                 ((chunkify B src).map (fun c => sha (secret ++ c))).flatten),
               blocks := (chunkify B src).map (fun c => sha (secret ++ c)),
               size := src.length }, st')) ∧
    (src = [] →
      ∃ st', stream_to_blocks sha blockOut B secret src st
        = Except.ok ({ total := sha secret, blocks := [], size := 0 }, st')) ∧
    (∀ (input : BlockList) (fetch : Bytes → Except ε Bytes) (w : Bytes),
      blocks_to_stream sha input fetch secret = (Except.ok (), w) →
      sha (secret ++ input.blocks.flatten) = input.total ∧
      ∀ h, h ∈ input.blocks → ∀ d, fetch h = Except.ok d →
        sha (secret ++ d) = h) := by
  refine ⟨?_, ?_, ?_⟩
  · obtain ⟨st', hst'⟩ := s2bGo_closed sha blockOut B secret hB hok
      (src.length + 1) src (List.replicate B 0) [] 0 secret st
      (Nat.lt_succ_self _)
    exact ⟨st', by simpa [stream_to_blocks, chunkify] using hst'⟩
  · intro hsrc
    subst hsrc
    exact ⟨st, by simp [stream_to_blocks, s2bGo]⟩
  · intro input fetch w hrun
    by_cases htot : sha (secret ++ input.blocks.flatten) = input.total
    · refine ⟨htot, ?_⟩
      rw [blocks_to_stream, if_pos htot] at hrun
      exact b2sGo_ok sha fetch secret input.blocks [] w hrun
    · rw [blocks_to_stream, if_neg htot] at hrun
      cases hrun

/-- Witness for C10 at `sha := id`, `B := 2`, `secret := [7]`,
`src := [1, 2, 3]`, with the storing sink. -/
theorem C10_prefix_keyed_sha3_witness :
    (∃ st',
      stream_to_blocks (fun l => l) storeSink 2 [7] [1, 2, 3] []
        = Except.ok
            ({ total := (fun l => l) (([7] : Bytes) ++
                 ((chunkify 2 [1, 2, 3]).map
                   (fun c => (fun l => l) (([7] : Bytes) ++ c))).flatten),
               blocks := (chunkify 2 [1, 2, 3]).map
                   (fun c => (fun l => l) (([7] : Bytes) ++ c)),
               size := ([1, 2, 3] : Bytes).length }, st')) ∧
    (([1, 2, 3] : Bytes) = [] →
      ∃ st', stream_to_blocks (fun l => l) storeSink 2 [7] [1, 2, 3] []
        = Except.ok ({ total := [7], blocks := [], size := 0 }, st')) ∧
    (∀ (input : BlockList) (fetch : Bytes → Except Unit Bytes) (w : Bytes),
      blocks_to_stream (fun l => l) input fetch [7] = (Except.ok (), w) →
      (fun l => l) (([7] : Bytes) ++ input.blocks.flatten) = input.total ∧
      ∀ h, h ∈ input.blocks → ∀ d, fetch h = Except.ok d →
        (fun l => l) (([7] : Bytes) ++ d) = h) :=
  C10_prefix_keyed_sha3 (fun l => l) storeSink 2 [7] [1, 2, 3] []
    (by decide) (fun s h b => ⟨s ++ [(h, b)], rfl⟩)

/-- AES block size in bytes (`BLKSZ` in `crypt.rs`). -/
abbrev BLKSZ : Nat := 16

/-- Pointwise XOR of byte strings (`hixor` in `crypt.rs` and the XOR step
of CBC mode); like `zip`, it truncates to the shorter operand. -/
def xorBytes (a b : Bytes) : Bytes := List.zipWith Nat.xor a b

/-- Directory half of the 32-byte master key (`MasterKey::dir_key`):
bytes 0..16. -/
def dirKey (master : Bytes) : Bytes := master.take BLKSZ

/-- Object half of the master key (`MasterKey::obj_key`): bytes 16..32. -/
def objKey (master : Bytes) : Bytes := (master.drop BLKSZ).take BLKSZ

/-- CBC encryption over a list of 16-byte blocks, parameterized by the
AES-128 block encryption `enc` (which lives in the external `rust-crypto`
crate): each block is XORed with the previous ciphertext block (the IV
for the first) and then enciphered. -/
def cbcEnc (enc : Bytes → Bytes → Bytes) (key : Bytes) :
    Bytes → List Bytes → List Bytes
  | _, [] => []
  | iv, b :: rest =>
      let c := enc key (xorBytes iv b)
      c :: cbcEnc enc key c rest

/-- CBC decryption over a list of 16-byte blocks, parameterized by the
AES-128 block decryption `dec`: each ciphertext block is deciphered and
XORed with the previous ciphertext block (the IV for the first). -/
def cbcDec (dec : Bytes → Bytes → Bytes) (key : Bytes) :
    Bytes → List Bytes → List Bytes
  | _, [] => []
  | iv, c :: rest => xorBytes iv (dec key c) :: cbcDec dec key c rest

/-- `dir_ver_iv` (`crypt.rs` lines 581-587): the first 8 IV bytes are
`dir[i] XOR dir[i+16]`; the upper 8 bytes stay zero. -/
def dirVerIv (dir : Bytes) : Bytes :=
  (List.range 8).map (fun i => Nat.xor (dir.getD i 0) (dir.getD (i + BLKSZ) 0))
    ++ List.replicate 8 0

/-- Little-endian byte encoding on `n` bytes (the first loop of
`encrypt_dir_ver`: emit `ver & 0xFF`, then `ver >>= 8`). -/
def leBytes : Nat → Nat → Bytes
  | 0, _ => []
  | n + 1, v => v % 256 :: leBytes n (v / 256)

/-- Little-endian byte decoding (the final loop of `decrypt_dir_ver`:
`ver |= cleartext[ix] << (ix * 8)`). -/
def decodeLE (l : Bytes) : Nat :=
  l.foldr (fun b acc => acc * 256 + b) 0

/-- `encrypt_dir_ver` (`crypt.rs` lines 590-607): the 32-byte cleartext
carries the little-endian version in its first 8 bytes and zeroes
elsewhere; it is encrypted with AES-128-CBC under the directory half of
the master key and the `dirVerIv` IV, no padding. -/
def encrypt_dir_ver (enc : Bytes → Bytes → Bytes) (dir : Bytes) (ver : Nat)
    (master : Bytes) : Bytes :=
  let cleartext := leBytes 8 ver ++ List.replicate 24 0
  (cbcEnc enc (dirKey master) (dirVerIv dir)
    (chunkify BLKSZ cleartext)).flatten

/-- Cleartext recovered by `decrypt_dir_ver` before its checks: the CBC
decryption of the ciphertext written over a 32-byte buffer prefilled with
the invalid value 255 (`let mut cleartext = [255u8;32]`), so positions
the decryption does not reach keep 255. -/
def recoverDirVer (dec : Bytes → Bytes → Bytes) (dir : Bytes)
    (ciphertext : Bytes) (master : Bytes) : Bytes :=
  ((cbcDec dec (dirKey master) (dirVerIv dir)
      (chunkify BLKSZ ciphertext)).flatten ++ List.replicate 32 255).take 32

/-- `decrypt_dir_ver` (`crypt.rs` lines 612-639): if any byte in
positions 8..32 of the recovered cleartext is nonzero, silently return 0;
otherwise decode the first 8 bytes little-endian.  The function is total:
no error is ever raised (with two full blocks and no padding the CBC
decryption itself cannot fail). -/
def decrypt_dir_ver (dec : Bytes → Bytes → Bytes) (dir : Bytes)
    (ciphertext : Bytes) (master : Bytes) : Nat :=
  let cleartext := recoverDirVer dec dir ciphertext master
  if (cleartext.drop 8).any (fun b => b != 0) then 0
  else decodeLE (cleartext.take 8)

theorem leBytes_length : ∀ n v, (leBytes n v).length = n := by
  intro n
  induction n with
  | zero => intro v; rfl
  | succ n ih => intro v; simp [leBytes, ih]

theorem dirVerIv_length (dir : Bytes) : (dirVerIv dir).length = 16 := by
  simp [dirVerIv]

theorem xorBytes_length (a b : Bytes) :
    (xorBytes a b).length = min a.length b.length := by
  simp [xorBytes]

theorem xorBytes_cancel : ∀ a b : Bytes, a.length = b.length →
    xorBytes a (xorBytes a b) = b := by
  intro a
  induction a with
  | nil =>
      intro b h
      cases b with
      | nil => rfl
      | cons y ys => simp at h
  | cons x xs ih =>
      intro b h
      cases b with
      | nil => simp at h
      | cons y ys =>
          simp only [xorBytes, List.zipWith_cons_cons, List.cons.injEq]
          constructor
          · show x ^^^ (x ^^^ y) = y
            rw [← Nat.xor_assoc, Nat.xor_self, Nat.zero_xor]
          · exact ih ys (by simpa using h)

theorem chunkify_two_blocks (l : Bytes) (h : l.length = 32) :
    chunkify BLKSZ l = [l.take 16, l.drop 16] := by
  have h16 : (l.drop 16).length = 16 := by simp [h]
  have hnil : (l.drop 16).drop 16 = [] :=
    List.drop_eq_nil_of_le (by omega)
  rw [chunkify, h]
  rw [show (32 : Nat) + 1 = 32 + 1 from rfl, chunkifyGo]
  rw [if_neg (by simp [h])]
  rw [show (32 : Nat) = 31 + 1 from rfl, chunkifyGo]
  rw [if_neg (by simp [h16])]
  rw [show (31 : Nat) = 30 + 1 from rfl, chunkifyGo]
  rw [if_pos (by simp [hnil])]
  rw [List.take_of_length_le (le_of_eq h16)]

theorem decodeLE_leBytes : ∀ n v, decodeLE (leBytes n v) = v % 256 ^ n := by
  intro n
  induction n with
  | zero => intro v; simp [leBytes, decodeLE, Nat.mod_one]
  | succ n ih =>
      intro v
      have hrec := ih (v / 256)
      simp only [leBytes, decodeLE, List.foldr_cons] at *
      rw [hrec, Nat.pow_succ', Nat.mod_mul]
      omega

/-- C7: the directory-version cipher round-trips: for every directory id,
64-bit version and master key, decrypting the encryption recovers the
version, provided only that the parameter block cipher is a genuine
16-byte block cipher under the directory key (decryption inverts
encryption and block length is preserved). -/
theorem C7_dir_ver_roundtrip (enc dec : Bytes → Bytes → Bytes)
    (dir master : Bytes) (ver : Nat) (hv : ver < 2 ^ 64)
    (hlen : ∀ b : Bytes, b.length = 16 → (enc (dirKey master) b).length = 16)
    (hdec : ∀ b : Bytes, b.length = 16 →
      dec (dirKey master) (enc (dirKey master) b) = b) :
    decrypt_dir_ver dec dir (encrypt_dir_ver enc dir ver master) master
      = ver := by
  set k := dirKey master with hk
  set iv := dirVerIv dir with hiv
  set p : Bytes := leBytes 8 ver ++ List.replicate 24 0 with hp
  have hplen : p.length = 32 := by simp [hp, leBytes_length]
  have hchunk : chunkify BLKSZ p = [p.take 16, p.drop 16] :=
    chunkify_two_blocks p hplen
  have hp1len : (p.take 16).length = 16 := by simp [hplen]
  have hp2len : (p.drop 16).length = 16 := by simp [hplen]
  have hivlen : iv.length = 16 := dirVerIv_length dir
  have hx1len : (xorBytes iv (p.take 16)).length = 16 := by
    simp [xorBytes_length, hivlen, hp1len]
  set c1 : Bytes := enc k (xorBytes iv (p.take 16)) with hc1
  have hc1len : c1.length = 16 := hlen _ hx1len
  have hx2len : (xorBytes c1 (p.drop 16)).length = 16 := by
    simp [xorBytes_length, hc1len, hp2len]
  set c2 : Bytes := enc k (xorBytes c1 (p.drop 16)) with hc2
  have hc2len : c2.length = 16 := hlen _ hx2len
  have henc : encrypt_dir_ver enc dir ver master = c1 ++ c2 := by
    rw [encrypt_dir_ver]
    rw [← hp, ← hk, ← hiv, hchunk]
    simp [cbcEnc, ← hc1, ← hc2]
  rw [henc]
  have hctlen : (c1 ++ c2).length = 32 := by simp [hc1len, hc2len]
  have hchunk2 : chunkify BLKSZ (c1 ++ c2)
      = [(c1 ++ c2).take 16, (c1 ++ c2).drop 16] :=
    chunkify_two_blocks _ hctlen
  have ht : (c1 ++ c2).take 16 = c1 := List.take_left' hc1len
  have hd : (c1 ++ c2).drop 16 = c2 := List.drop_left' hc1len
  have hdec1 : dec k c1 = xorBytes iv (p.take 16) := by
    rw [hc1]; exact hdec _ hx1len
  have hdec2 : dec k c2 = xorBytes c1 (p.drop 16) := by
    rw [hc2]; exact hdec _ hx2len
  have hrec : recoverDirVer dec dir (c1 ++ c2) master = p := by
    rw [recoverDirVer, ← hk, ← hiv, hchunk2, ht, hd]
    simp only [cbcDec, List.flatten_cons, List.flatten_nil, List.append_nil]
    rw [hdec1, hdec2,
      xorBytes_cancel iv (p.take 16) (by rw [hivlen, hp1len]),
      xorBytes_cancel c1 (p.drop 16) (by rw [hc1len, hp2len]),
      List.take_append_drop]
    exact List.take_left' hplen
  have hdrop8 : p.drop 8 = List.replicate 24 0 := by
    rw [hp]
    exact List.drop_left' (leBytes_length 8 ver)
  have htake8 : p.take 8 = leBytes 8 ver := by
    rw [hp]
    exact List.take_left' (leBytes_length 8 ver)
  rw [decrypt_dir_ver, hrec, hdrop8, htake8]
  rw [if_neg (by simp)]
  rw [decodeLE_leBytes]
  have h8 : (256 : Nat) ^ 8 = 2 ^ 64 := by norm_num
  rw [h8]
  exact Nat.mod_eq_of_lt hv

/-- Witness for C7 with the identity block cipher, version 42. -/
theorem C7_dir_ver_roundtrip_witness :
    decrypt_dir_ver (fun _ b => b) (List.replicate 32 3)
      (encrypt_dir_ver (fun _ b => b) (List.replicate 32 3) 42
        (List.replicate 32 5))
      (List.replicate 32 5) = 42 :=
  C7_dir_ver_roundtrip (fun _ b => b) (fun _ b => b) (List.replicate 32 3)
    (List.replicate 32 5) 42 (by norm_num) (fun b hb => hb)
    (fun b _ => rfl)

/-- C8: whenever the recovered cleartext of a directory-version
ciphertext has a nonzero byte in positions 8..32, `decrypt_dir_ver`
returns 0 — and, being a total function into `Nat`, it raises no error.
The all-zero ciphertext of the claim is an instance (see the witness). -/
theorem C8_dir_ver_tamper_to_zero (dec : Bytes → Bytes → Bytes)
    (dir ciphertext master : Bytes)
    (hbad : ((recoverDirVer dec dir ciphertext master).drop 8).any
        (fun b => b != 0) = true) :
    decrypt_dir_ver dec dir ciphertext master = 0 := by
  rw [decrypt_dir_ver, if_pos hbad]

/-- Witness for C8: the all-zero 32-byte ciphertext under a block
decryption whose output makes the recovered padding nonzero decodes to
version 0. -/
theorem C8_dir_ver_tamper_to_zero_witness :
    ((recoverDirVer (fun _ _ => List.replicate 16 1) (List.replicate 32 0)
        (List.replicate 32 0) (List.replicate 32 0)).drop 8).any
      (fun b => b != 0) = true
    ∧ decrypt_dir_ver (fun _ _ => List.replicate 16 1) (List.replicate 32 0)
        (List.replicate 32 0) (List.replicate 32 0) = 0 :=
  ⟨by decide,
   C8_dir_ver_tamper_to_zero (fun _ _ => List.replicate 16 1)
     (List.replicate 32 0) (List.replicate 32 0) (List.replicate 32 0)
     (by decide)⟩

/-- Outcome of one pass of a rust-crypto cryptor over one input buffer
(the `Cryptor::crypt` wrapper in `crypt.rs`): on success the whole input
is consumed and `out` is emitted; on failure (e.g. invalid PKCS padding
at end of input) the cryptor has emitted `out` and left `unconsumed`
input bytes unread.  The cryptor's internal state is threaded as `σ`. -/
inductive CryptStep (σ : Type) where
  | ok (st : σ) (out : Bytes)
  | err (st : σ) (out : Bytes) (unconsumed : Nat)

/-- Failures of `crypt_stream` and its callers: the process panic taken
when `panic_on_crypt_err` is set and the cryptor fails, and the I/O error
of `read_exact` on a source shorter than the 32-byte session prefix.
(Read/write errors of the list-modelled source and sink cannot occur.) -/
inductive CryptErr where
  | panicked
  | ioShortRead
deriving DecidableEq

/-- Main loop of `crypt_stream` (`crypt.rs` lines 420-462).  Each pass
collects up to 4096 source bytes; EOF is observed during the pass in
which a read returns zero, i.e. exactly when fewer than 4096 bytes
remained.  The pass's bytes go through the cryptor; on a cryptor error
the process panics if `panic` is set, and otherwise the unconsumed bytes
of the pass are replaced by zero bytes in the output and no error is
reported.  `fuel` bounds the number of passes; each non-final pass
consumes 4096 source bytes, so the `src.length + 1` supplied by
`crypt_stream` is always sufficient. -/
def csGo (panic : Bool) (crypt : σ → Bytes → Bool → CryptStep σ) :
    Nat → σ → Bytes → Except CryptErr Bytes
  | 0, _, _ => .ok []
  | fuel + 1, st, src =>
      let chunk := src.take 4096
      let eof := decide (src.length < 4096)
      match crypt st chunk eof with
      | .ok st' out =>
          if eof then .ok out
          else (csGo panic crypt fuel st' (src.drop 4096)).map
            (fun rest => out ++ rest)
      | .err st' out uncons =>
          if panic then .error .panicked
          else if eof then .ok (out ++ List.replicate uncons 0)
          else (csGo panic crypt fuel st' (src.drop 4096)).map
            (fun rest => out ++ List.replicate uncons 0 ++ rest)

/-- `crypt_stream` (`crypt.rs` lines 420-462), returning the bytes
written to `dst`. -/
def crypt_stream (panic : Bool) (crypt : σ → Bytes → Bool → CryptStep σ)
    (st : σ) (src : Bytes) : Except CryptErr Bytes :=
  csGo panic crypt (src.length + 1) st src

/-- `read_cbc_prefix` (`crypt.rs` lines 489-502): `read_exact` the
32-byte encrypted session head (failing with an I/O error on a shorter
source) and decrypt it with AES-128-CBC under the given master half,
zero IV, no padding — which cannot fail on two full blocks — then split
it into the session key and IV (`split_key_and_iv`). -/
def read_cbc_prefix (dec : Bytes → Bytes → Bytes) (half : Bytes)
    (src : Bytes) : Except CryptErr (Bytes × Bytes) :=
  if 32 ≤ src.length then
    let kiv := (cbcDec dec half (List.replicate BLKSZ 0)
        (chunkify BLKSZ (src.take 32))).flatten
    .ok (kiv.take BLKSZ, (kiv.drop BLKSZ).take BLKSZ)
  else .error .ioShortRead

/-- `decrypt_obj` (`crypt.rs` lines 518-527): read and decrypt the
session prefix with the object half of the master key, then run the PKCS
CBC decryptor — abstracted as `mkCryptor key iv`, since claim C9 is
precisely about its failure behaviour — over the remaining source via
`crypt_stream` with `panic_on_crypt_err = false`. -/
def decrypt_obj (dec : Bytes → Bytes → Bytes)
    (mkCryptor : Bytes → Bytes → σ × (σ → Bytes → Bool → CryptStep σ))
    (master src : Bytes) : Except CryptErr Bytes :=
  match read_cbc_prefix dec (objKey master) src with
  | .error e => .error e
  | .ok (key, iv) =>
      let c := mkCryptor key iv
      crypt_stream false c.2 c.1 (src.drop 32)

/-- `decrypt_whole_dir` (`crypt.rs` lines 561-570): like `decrypt_obj`
but with the directory half and a no-padding cryptor, returning the
session key for later appends. -/
def decrypt_whole_dir (dec : Bytes → Bytes → Bytes)
    (mkCryptor : Bytes → Bytes → σ × (σ → Bytes → Bool → CryptStep σ))
    (master src : Bytes) : Except CryptErr (Bytes × Bytes) :=
  match read_cbc_prefix dec (dirKey master) src with
  | .error e => .error e
  | .ok (key, iv) =>
      let c := mkCryptor key iv
      (crypt_stream false c.2 c.1 (src.drop 32)).map (fun out => (key, out))

theorem csGo_false_ok {σ : Type} (crypt : σ → Bytes → Bool → CryptStep σ) :
    ∀ (fuel : Nat) (st : σ) (src : Bytes),
      ∃ out, csGo false crypt fuel st src = Except.ok out := by
  intro fuel
  induction fuel with
  | zero => intro st src; exact ⟨[], rfl⟩
  | succ fuel ih =>
      intro st src
      rcases hc : crypt st (src.take 4096) (decide (src.length < 4096)) with
        ⟨st', out⟩ | ⟨st', out, uncons⟩
      · by_cases he : src.length < 4096
        · rw [show decide (src.length < 4096) = true by simp [he]] at hc
          exact ⟨out, by simp [csGo, hc, he]⟩
        · rw [show decide (src.length < 4096) = false by simp [he]] at hc
          obtain ⟨rest, hrest⟩ := ih st' (src.drop 4096)
          exact ⟨out ++ rest, by simp [csGo, hc, he, hrest, Except.map]⟩
      · by_cases he : src.length < 4096
        · rw [show decide (src.length < 4096) = true by simp [he]] at hc
          exact ⟨out ++ List.replicate uncons 0, by simp [csGo, hc, he]⟩
        · rw [show decide (src.length < 4096) = false by simp [he]] at hc
          obtain ⟨rest, hrest⟩ := ih st' (src.drop 4096)
          exact ⟨out ++ List.replicate uncons 0 ++ rest,
            by simp [csGo, hc, he, hrest, Except.map]⟩

/-- C9: with `panic_on_crypt_err = false` a cipher-level failure is never
surfaced: `crypt_stream` always succeeds, and on a failing final pass it
writes the cryptor's partial output followed by one zero byte per
unconsumed input byte; consequently `decrypt_obj` and
`decrypt_whole_dir` succeed on every source holding at least the 32-byte
session prefix, whatever the abstract PKCS cryptor does — an
invalid-padding ciphertext is indistinguishable from a valid one by the
returned result. -/
theorem C9_decrypt_swallows_cipher_errors {σ : Type} :
    (∀ (crypt : σ → Bytes → Bool → CryptStep σ) (st : σ) (src : Bytes),
      ∃ out, crypt_stream false crypt st src = Except.ok out) ∧
    (∀ (crypt : σ → Bytes → Bool → CryptStep σ) (st st' : σ)
       (src out : Bytes) (uncons : Nat),
      src.length < 4096 →
      crypt st src true = CryptStep.err st' out uncons →
      crypt_stream false crypt st src
        = Except.ok (out ++ List.replicate uncons 0)) ∧
    (∀ (dec : Bytes → Bytes → Bytes)
       (mk : Bytes → Bytes → σ × (σ → Bytes → Bool → CryptStep σ))
       (master src : Bytes), 32 ≤ src.length →
      ∃ out, decrypt_obj dec mk master src = Except.ok out) ∧
    (∀ (dec : Bytes → Bytes → Bytes)
       (mk : Bytes → Bytes → σ × (σ → Bytes → Bool → CryptStep σ))
       (master src : Bytes), 32 ≤ src.length →
      ∃ kout, decrypt_whole_dir dec mk master src = Except.ok kout) := by
  have hok : ∀ (crypt : σ → Bytes → Bool → CryptStep σ) (st : σ)
      (src : Bytes), ∃ out, crypt_stream false crypt st src = Except.ok out :=
    fun crypt st src => csGo_false_ok crypt (src.length + 1) st src
  refine ⟨hok, ?_, ?_, ?_⟩
  · intro crypt st st' src out uncons hlt hstep
    have htake : src.take 4096 = src := List.take_of_length_le (by omega)
    have he : decide (src.length < 4096) = true := by simp [hlt]
    rw [crypt_stream, csGo]
    rw [htake, he, hstep]
    simp
  · intro dec mk master src hlen
    rw [decrypt_obj, read_cbc_prefix, if_pos hlen]
    exact hok _ _ _
  · intro dec mk master src hlen
    rw [decrypt_whole_dir, read_cbc_prefix, if_pos hlen]
    set kiv := (cbcDec dec (dirKey master) (List.replicate BLKSZ 0)
      (chunkify BLKSZ (src.take 32))).flatten with hkiv
    obtain ⟨out, hout⟩ :=
      hok (mk (kiv.take BLKSZ) ((kiv.drop BLKSZ).take BLKSZ)).2
        (mk (kiv.take BLKSZ) ((kiv.drop BLKSZ).take BLKSZ)).1 (src.drop 32)
    refine ⟨(kiv.take BLKSZ, out), ?_⟩
    dsimp only
    rw [hout]
    rfl

/-- Witness for C9 at a concretely failing cryptor and concrete sources. -/
theorem C9_decrypt_swallows_cipher_errors_witness :
    (∃ out, crypt_stream false
        (fun (_ : Unit) _ _ => CryptStep.err () [9] 3) () [1, 2]
      = Except.ok out) ∧
    (crypt_stream false (fun (_ : Unit) _ _ => CryptStep.err () [9] 3) ()
        [1, 2]
      = Except.ok ([9] ++ List.replicate 3 0)) ∧
    (∃ out, decrypt_obj (fun _ b => b)
        (fun _ _ => ((), fun (_ : Unit) _ _ => CryptStep.err () [] 5))
        (List.replicate 32 0) (List.replicate 32 0)
      = Except.ok out) ∧
    (∃ kout, decrypt_whole_dir (fun _ b => b)
        (fun _ _ => ((), fun (_ : Unit) _ _ => CryptStep.err () [] 5))
        (List.replicate 32 0) (List.replicate 32 0)
      = Except.ok kout) :=
  ⟨C9_decrypt_swallows_cipher_errors.1 _ () [1, 2],
   C9_decrypt_swallows_cipher_errors.2.1 _ () () [1, 2] [9] 3
     (by norm_num) rfl,
   C9_decrypt_swallows_cipher_errors.2.2.1 _ _ (List.replicate 32 0)
     (List.replicate 32 0) (by simp),
   C9_decrypt_swallows_cipher_errors.2.2.2 _ _ (List.replicate 32 0)
     (List.replicate 32 0) (by simp)⟩

/-- `ErrorKind` variants used by the key-management layer (declared in
the crate's `errors.rs`, consumed by `keymgmt.rs`). -/
inductive KmErr where
  | kdfListNotExists
  | kdfListAlreadyExists
  | passphraseNotInKdfList
  | keyNotInKdfList (name : String)
  | keyNameAlreadyInUse (name : String)
  | groupNotInKdfList (name : String)
  | groupNameAlreadyInUse (name : String)
  | keyAlreadyInGroup (name : String)
  | keyNotInGroup (name : String)
  | cannotDisassocGroup (name : String)
  | cannotDestroyGroup (name : String)
  | wouldRemoveLastKdfEntry
  | wouldDisassocLastKeyFromGroup (key group : String)
  | anonChangeKeyButMultipleKdfEntries
  | changeKeyWithPassphraseMismatch
  | tooManyTxRetries
deriving DecidableEq

/-- Association-list model of `BTreeMap`: lookup. -/
def alGet (l : List (String × α)) (k : String) : Option α :=
  (l.find? (fun p => p.1 == k)).map Prod.snd

/-- `BTreeMap::insert`: replace the binding in place when the key is
present, append otherwise.  (The maps built by the code always have
distinct keys, so keeping the original position models the `BTreeMap`
faithfully up to its sorted iteration order.) -/
def alInsert (l : List (String × α)) (k : String) (v : α) :
    List (String × α) :=
  match l with
  | [] => [(k, v)]
  | (k', v') :: rest =>
      if k' == k then (k, v) :: rest
      else (k', v') :: alInsert rest k v

/-- `BTreeMap::remove`: drop the binding of `k`. -/
def alRemove (l : List (String × α)) (k : String) : List (String × α) :=
  match l with
  | [] => []
  | (k', v') :: rest =>
      if k' == k then rest else (k', v') :: alRemove rest k

/-- `KdfEntry` as consumed by `keymgmt.rs`.  `DateTime<UTC>` is
abstracted to `Nat`.  The `crypt.rs` under `src/` predates the group
schema, so the per-group wrap map is modelled from the spec: `groups` is
a mapping from group name to the wrapped internal key for that group. -/
structure KdfEntry where
  created : Nat
  updated : Option Nat
  used : Option Nat
  algorithm : String
  salt : Bytes
  hash : Bytes
  groups : List (String × Bytes)
deriving DecidableEq

/-- `KdfList`: the registry, keyed by entry name. -/
structure KdfList where
  keys : List (String × KdfEntry)
deriving DecidableEq

/-- Modelled from the spec: a `KeyChain` maps each group name to that
group's internal key (the group-aware `crypt.rs` with `KeyChain` is not
under `src/`; `keymgmt.rs` is its caller). -/
structure KeyChain where
  keys : List (String × Bytes)
deriving DecidableEq

/-- The built-in group name `GROUP_EVERYONE`. -/
def GROUP_EVERYONE : String := "everyone"

/-- The built-in group name `GROUP_ROOT`. -/
def GROUP_ROOT : String := "root"

/-- The key-derivation primitives, abstracted: scrypt (external
`rust-crypto`) and SHA-3-256 (external `keccak`). -/
structure KdfPrims where
  scrypt : Bytes → Bytes → Bytes
  sha3 : Bytes → Bytes

/-- Modelled from the spec (§4.3.2, creating a key entry; the group-aware
`create_key` is not under `src/`): derive from the passphrase and a fresh
random salt (injected here as `salt` to keep the embedding
deterministic), store the SHA-3 of the derived key, and wrap each group's
internal key of the chain as `derived XOR internal_key`. -/
def create_key (P : KdfPrims) (salt passphrase : Bytes) (chain : KeyChain)
    (created : Nat) (updated used : Option Nat) : KdfEntry :=
  let derived := P.scrypt passphrase salt
  { created := created, updated := updated, used := used,
    algorithm := "scrypt-18-8-1", salt := salt,
    hash := P.sha3 derived,
    groups := chain.keys.map (fun g => (g.1, xorBytes derived g.2)) }

/-- Modelled from the spec (§4.3.3, trying a passphrase against one
entry): recompute the derived key with the entry's algorithm and salt,
compare its SHA-3 with the stored hash, and on a match unwrap every
group recorded on the entry. -/
def try_derive_key_single (P : KdfPrims) (passphrase : Bytes)
    (e : KdfEntry) : Option KeyChain :=
  if e.algorithm = "scrypt-18-8-1" then
    let derived := P.scrypt passphrase e.salt
    if P.sha3 derived = e.hash then
      some { keys := e.groups.map (fun g => (g.1, xorBytes derived g.2)) }
    else none
  else none

/-- `try_derive_key`: the first matching entry in iteration order. -/
def try_derive_key (P : KdfPrims) (passphrase : Bytes) :
    List (String × KdfEntry) → Option KeyChain
  | [] => none
  | (_, e) :: rest =>
      match try_derive_key_single P passphrase e with
      | some c => some c
      | none => try_derive_key P passphrase rest

/-- Modelled from the spec: looking a group up in a `KeyChain` fails with
`KeyNotInGroup` when the chain lacks it (`key_chain.key(group)?` in
`change_key`). -/
def KeyChain.key (c : KeyChain) (g : String) : Except KmErr Bytes :=
  match alGet c.keys g with
  | some k => .ok k
  | none => .error (.keyNotInGroup g)

/-- Modelled from the spec (§4.4, rewrapping): recompute the entry's
per-group wraps for the chain's current group set using the entry's
existing derived key (`reassoc_keys` is not under `src/`). -/
def reassoc_keys (derived : Bytes) (e : KdfEntry) (chain : KeyChain) :
    KdfEntry :=
  { e with groups := chain.keys.map (fun g => (g.1, xorBytes derived g.2)) }

/-- Name resolution of `change_key` (`keymgmt.rs` lines 193-199): an
explicit name is used as is; otherwise the single entry's name; with
several entries and no name, `AnonChangeKeyButMultipleKdfEntries`. -/
def chkRealName (kdflist : KdfList) (name : Option String) :
    Except KmErr String :=
  match name with
  | some n => .ok n
  | none =>
      match kdflist.keys with
      | [(n, _)] => .ok n
      | _ => .error .anonChangeKeyButMultipleKdfEntries

/-- Chain selection of `change_key` (`keymgmt.rs` lines 204-216): the old
entry's own passphrase is always accepted; another entry's passphrase
only under `allow_change_via_other_passphrase`; otherwise the appropriate
error. -/
def chkChain (P : KdfPrims) (old_passphrase : Bytes) (old_entry : KdfEntry)
    (remaining : List (String × KdfEntry)) (allow : Bool) :
    Except KmErr KeyChain :=
  match try_derive_key_single P old_passphrase old_entry with
  | some mk => .ok mk
  | none =>
      match try_derive_key P old_passphrase remaining with
      | some mk =>
          if allow then .ok mk else .error .changeKeyWithPassphraseMismatch
      | none => .error .passphraseNotInKdfList

/-- Construction of the replacement chain in `change_key` (`keymgmt.rs`
lines 218-222): every group on the old entry is looked up in the selected
chain (`key_chain.key(group)?`), failing with `KeyNotInGroup` on the
first group the chain lacks. -/
def buildNewChain (key_chain : KeyChain) :
    List (String × Bytes) → Except KmErr KeyChain
  | [] => .ok { keys := [] }
  | (g, _) :: rest =>
      match key_chain.key g with
      | .error e => .error e
      | .ok ik =>
          match buildNewChain key_chain rest with
          | .error e => .error e
          | .ok c => .ok { keys := (g, ik) :: c.keys }

/-- The edit closure of `change_key` (`keymgmt.rs` lines 186-231),
acting on the in-memory list; `now` is `UTC::now()` and `newSalt` the
random salt drawn inside `create_key`. -/
def change_key_edit (P : KdfPrims) (now : Nat) (newSalt : Bytes)
    (old_passphrase new_passphrase : Bytes) (name : Option String)
    (allow : Bool) (kdflist : KdfList) : Except KmErr KdfList :=
  match chkRealName kdflist name with
  | .error e => .error e
  | .ok real_name =>
      match alGet kdflist.keys real_name with
      | none => .error (.keyNotInKdfList real_name)
      | some old_entry =>
          let remaining := alRemove kdflist.keys real_name
          match chkChain P old_passphrase old_entry remaining allow with
          | .error e => .error e
          | .ok key_chain =>
              match buildNewChain key_chain old_entry.groups with
              | .error e => .error e
              | .ok new_chain =>
                  .ok { keys := (alInsert remaining real_name
                    (create_key P newSalt new_passphrase new_chain
                      old_entry.created (some now) old_entry.used)) }

/-- The edit closure of `add_key` (`keymgmt.rs` lines 125-142): derive
the chain with the old passphrase, then insert the new entry, failing
with `KeyNameAlreadyInUse` when the name is taken (the Rust code inserts
first and errors on a displaced value; since an erring edit is discarded
the observable effect is the same). -/
def add_key_edit (P : KdfPrims) (now : Nat) (newSalt : Bytes)
    (old_passphrase new_passphrase : Bytes) (new_name : String)
    (kdflist : KdfList) : Except KmErr KdfList :=
  match try_derive_key P old_passphrase kdflist.keys with
  | none => .error .passphraseNotInKdfList
  | some key_chain =>
      if (alGet kdflist.keys new_name).isSome then
        .error (.keyNameAlreadyInUse new_name)
      else
        .ok { keys := (alInsert kdflist.keys new_name
          (create_key P newSalt new_passphrase key_chain now none none)) }

/-- The edit closure of `del_key` (`keymgmt.rs` lines 154-172): remove
the named entry, refuse if that empties the list, then refuse if any
group of the removed entry is carried by no remaining entry. -/
def del_key_edit (name : String) (kdflist : KdfList) :
    Except KmErr KdfList :=
  match alGet kdflist.keys name with
  | none => .error (.keyNotInKdfList name)
  | some old_entry =>
      let keys' := alRemove kdflist.keys name
      if keys'.isEmpty then .error .wouldRemoveLastKdfEntry
      else
        match old_entry.groups.find? (fun g =>
          !(keys'.any (fun p => (alGet p.2.groups g.1).isSome))) with
        | some g => .error (.wouldDisassocLastKeyFromGroup name g.1)
        | none => .ok { keys := keys' }

/-- Group insertion of `create_group`: one fresh internal key per name
(`InternalKey::generate_new()`, injected as `newKeys`). -/
def cgFresh (names : List String) (newKeys : String → Bytes)
    (kc : KeyChain) : KeyChain :=
  names.foldl (fun c nm => { keys := alInsert c.keys nm (newKeys nm) }) kc

/-- Entry loop of `create_group` (`keymgmt.rs` lines 267-279): the first
entry matching the passphrase has the fresh groups added to its chain and
is rewrapped in place; no match means `PassphraseNotInKdfList`. -/
def cgLoop (P : KdfPrims) (passphrase : Bytes) (names : List String)
    (newKeys : String → Bytes) :
    List (String × KdfEntry) → Except KmErr (List (String × KdfEntry))
  | [] => .error .passphraseNotInKdfList
  | (n, e) :: rest =>
      match try_derive_key_single P passphrase e with
      | some kc =>
          .ok ((n, reassoc_keys (P.scrypt passphrase e.salt) e
            (cgFresh names newKeys kc)) :: rest)
      | none =>
          match cgLoop P passphrase names newKeys rest with
          | .error er => .error er
          | .ok rest' => .ok ((n, e) :: rest')

/-- The edit closure of `create_group` (`keymgmt.rs` lines 253-283):
refuse if any requested name is already a group on any entry, then run
the entry loop. -/
def create_group_edit (P : KdfPrims) (passphrase : Bytes)
    (names : List String) (newKeys : String → Bytes) (kdflist : KdfList) :
    Except KmErr KdfList :=
  match names.find? (fun nm =>
      kdflist.keys.any (fun p => (alGet p.2.groups nm).isSome)) with
  | some nm => .error (.groupNameAlreadyInUse nm)
  | none =>
      match cgLoop P passphrase names newKeys kdflist.keys with
      | .error e => .error e
      | .ok keys' => .ok { keys := keys' }

/-- Group transfer of `assoc_group` (`keymgmt.rs` lines 300-308): each
name must be absent from the destination chain (`KeyAlreadyInGroup`) and
present in the source chain (`key(name)?`). -/
def agInsert (src_chain : KeyChain) :
    List String → KeyChain → Except KmErr KeyChain
  | [], kc => .ok kc
  | nm :: rest, kc =>
      if (alGet kc.keys nm).isSome then .error (.keyAlreadyInGroup nm)
      else
        match src_chain.key nm with
        | .error e => .error e
        | .ok ik => agInsert src_chain rest { keys := alInsert kc.keys nm ik }

/-- Entry loop of `assoc_group` (`keymgmt.rs` lines 296-311). -/
def agLoop (P : KdfPrims) (dst_passphrase : Bytes) (names : List String)
    (src_chain : KeyChain) :
    List (String × KdfEntry) → Except KmErr (List (String × KdfEntry))
  | [] => .error .passphraseNotInKdfList
  | (n, e) :: rest =>
      match try_derive_key_single P dst_passphrase e with
      | some kc =>
          match agInsert src_chain names kc with
          | .error er => .error er
          | .ok kc' =>
              .ok ((n, reassoc_keys (P.scrypt dst_passphrase e.salt) e kc')
                :: rest)
      | none =>
          match agLoop P dst_passphrase names src_chain rest with
          | .error er => .error er
          | .ok rest' => .ok ((n, e) :: rest')

/-- The edit closure of `assoc_group` (`keymgmt.rs` lines 288-316). -/
def assoc_group_edit (P : KdfPrims) (src_passphrase dst_passphrase : Bytes)
    (names : List String) (kdflist : KdfList) : Except KmErr KdfList :=
  match try_derive_key P src_passphrase kdflist.keys with
  | none => .error .passphraseNotInKdfList
  | some src_chain =>
      match agLoop P dst_passphrase names src_chain kdflist.keys with
      | .error e => .error e
      | .ok keys' => .ok { keys := keys' }

/-- Group removal from one entry in `disassoc_group` (`keymgmt.rs` lines
336-340): each name must be present (`KeyNotInGroup`). -/
def dgRemove : List String → KdfEntry → Except KmErr KdfEntry
  | [], e => .ok e
  | nm :: rest, e =>
      if (alGet e.groups nm).isSome then
        dgRemove rest { e with groups := alRemove e.groups nm }
      else .error (.keyNotInGroup nm)

/-- `disassoc_group` (`keymgmt.rs` lines 322-353): `everyone` is refused
before any storage access; the edit removes each name from the keyed
entry and then refuses if some removed name is no longer carried by any
entry. -/
def disassoc_group_edit (key : String) (names : List String)
    (kdflist : KdfList) : Except KmErr KdfList :=
  match names.find? (fun nm => nm == GROUP_EVERYONE) with
  | some _ => .error (.cannotDisassocGroup GROUP_EVERYONE)
  | none =>
      match alGet kdflist.keys key with
      | none => .error (.keyNotInKdfList key)
      | some entry =>
          match dgRemove names entry with
          | .error e => .error e
          | .ok entry' =>
              let keys' := alInsert kdflist.keys key entry'
              match names.find? (fun nm =>
                  !(keys'.any (fun p => (alGet p.2.groups nm).isSome))) with
              | some nm => .error (.wouldDisassocLastKeyFromGroup key nm)
              | none => .ok { keys := keys' }

/-- Removal of one group name from every entry in `destroy_group`
(`keymgmt.rs` lines 372-375), also reporting whether it was found
anywhere. -/
def destroyOne (nm : String) :
    List (String × KdfEntry) → Bool × List (String × KdfEntry)
  | [] => (false, [])
  | (n, e) :: rest =>
      let found := (alGet e.groups nm).isSome
      let r := destroyOne nm rest
      (found || r.1, (n, { e with groups := alRemove e.groups nm }) :: r.2)

/-- Name loop of the `destroy_group` edit closure (`keymgmt.rs` lines
369-383): each name is removed from every entry, failing with
`GroupNotInKdfList` when a name was on no entry. -/
def dgAll : List String → List (String × KdfEntry) →
    Except KmErr (List (String × KdfEntry))
  | [], keys => .ok keys
  | nm :: rest, keys =>
      let r := destroyOne nm keys
      if r.1 then dgAll rest r.2
      else .error (.groupNotInKdfList nm)

/-- `destroy_group` (`keymgmt.rs` lines 358-384): `everyone` and `root`
are refused before any storage access, then the edit removes every name
from every entry. -/
def destroy_group_edit (names : List String) (kdflist : KdfList) :
    Except KmErr KdfList :=
  match names.find? (fun nm => nm == GROUP_EVERYONE || nm == GROUP_ROOT) with
  | some nm => .error (.cannotDestroyGroup nm)
  | none =>
      match dgAll names kdflist.keys with
      | .error e => .error e
      | .ok keys' => .ok { keys := keys' }

/-- State-level view of `edit_kdflist` (`keymgmt.rs` lines 83-93) for a
committing transaction: storage holds the deserialized KDF list under a
version token; on a closure error the transaction is aborted and nothing
is written; on success the blob is atomically replaced under the fresh
random version `newVer`.  (The retry control flow is modelled separately
by `do_tx`.) -/
def edit_kdflist (f : KdfList → Except KmErr KdfList)
    (st : Option (Nat × KdfList)) (newVer : Nat) :
    Except KmErr Unit × Option (Nat × KdfList) :=
  match st with
  | none => (.error .kdfListNotExists, none)
  | some (v, kdf) =>
      match f kdf with
      | .error e => (.error e, some (v, kdf))
      | .ok kdf' => (.ok (), some (newVer, kdf'))

/-- Calls observable by the storage (and the edit closure) during
`do_tx`. -/
inductive TxEvent where
  | startCall
  | editCall
  | commitCall
  | abortCall
deriving DecidableEq

/-- Attempt loop of `do_tx` (`keymgmt.rs` lines 32-53), with the
storage's behaviour abstracted per attempt number: `startR i`, `editR i`
(the outcome of the closure `f`) and `commitR i` describe attempt `i`.
Along with the result, the trace of calls is returned.  A failing
`start_tx` or `commit` propagates its error; a committing attempt
returns the closure's value; a conflicting commit (`Ok(false)`) retries;
a failing closure aborts the transaction and surfaces the error without
retrying.  `fuel` is the remaining attempt budget (`for _ in 0..16`);
exhausting it yields `TooManyTxRetries`. -/
def do_tx_go (startR : Nat → Except KmErr Unit) (editR : Nat → Except KmErr ρ)
    (commitR : Nat → Except KmErr Bool) :
    Nat → Nat → Except KmErr ρ × List TxEvent
  | _, 0 => (.error .tooManyTxRetries, [])
  | attempt, fuel + 1 =>
      match startR attempt with
      | .error e => (.error e, [.startCall])
      | .ok _ =>
          match editR attempt with
          | .error e => (.error e, [.startCall, .editCall, .abortCall])
          | .ok r =>
              match commitR attempt with
              | .error e => (.error e, [.startCall, .editCall, .commitCall])
              | .ok true => (.ok r, [.startCall, .editCall, .commitCall])
              | .ok false =>
                  let rc := do_tx_go startR editR commitR (attempt + 1) fuel
                  (rc.1, [.startCall, .editCall, .commitCall] ++ rc.2)

/-- `do_tx` (`keymgmt.rs` lines 32-53): at most 16 attempts. -/
def do_tx (startR : Nat → Except KmErr Unit) (editR : Nat → Except KmErr ρ)
    (commitR : Nat → Except KmErr Bool) : Except KmErr ρ × List TxEvent :=
  do_tx_go startR editR commitR 0 16

theorem count_edit_sec :
    List.count TxEvent.editCall
      [TxEvent.startCall, TxEvent.editCall, TxEvent.commitCall] = 1 := by
  decide

theorem count_edit_sea :
    List.count TxEvent.editCall
      [TxEvent.startCall, TxEvent.editCall, TxEvent.abortCall] = 1 := by
  decide

theorem count_edit_s :
    List.count TxEvent.editCall [TxEvent.startCall] = 0 := by
  decide

theorem do_tx_go_edit_count_le {ρ : Type} (startR : Nat → Except KmErr Unit)
    (editR : Nat → Except KmErr ρ) (commitR : Nat → Except KmErr Bool) :
    ∀ fuel attempt,
      ((do_tx_go startR editR commitR attempt fuel).2.count
        TxEvent.editCall) ≤ fuel := by
  intro fuel
  induction fuel with
  | zero => intro attempt; simp [do_tx_go]
  | succ fuel ih =>
      intro attempt
      rcases hs : startR attempt with e | u
      · simp only [do_tx_go, hs, count_edit_s]
        omega
      · rcases he : editR attempt with e | r
        · simp only [do_tx_go, hs, he, count_edit_sea]
          omega
        · rcases hc : commitR attempt with e | b
          · simp only [do_tx_go, hs, he, hc, count_edit_sec]
            omega
          · cases b with
            | true =>
                simp only [do_tx_go, hs, he, hc, count_edit_sec]
                omega
            | false =>
                have := ih (attempt + 1)
                simp only [do_tx_go, hs, he, hc, List.count_append,
                  count_edit_sec]
                omega

theorem do_tx_go_all_conflict {ρ : Type} (startR : Nat → Except KmErr Unit)
    (editR : Nat → Except KmErr ρ) (commitR : Nat → Except KmErr Bool)
    (hs : ∀ i, startR i = Except.ok ())
    (he : ∀ i, ∃ r, editR i = Except.ok r)
    (hc : ∀ i, commitR i = Except.ok false) :
    ∀ fuel attempt,
      (do_tx_go startR editR commitR attempt fuel).1
        = Except.error KmErr.tooManyTxRetries ∧
      (do_tx_go startR editR commitR attempt fuel).2.count
        TxEvent.editCall = fuel := by
  intro fuel
  induction fuel with
  | zero => intro attempt; simp [do_tx_go]
  | succ fuel ih =>
      intro attempt
      obtain ⟨r, hr⟩ := he attempt
      obtain ⟨h1, h2⟩ := ih (attempt + 1)
      constructor
      · simp [do_tx_go, hs attempt, hr, hc attempt, h1]
      · simp only [do_tx_go, hs attempt, hr, hc attempt, List.count_append,
          count_edit_sec]
        omega

theorem do_tx_go_edit_fails {ρ : Type} (startR : Nat → Except KmErr Unit)
    (editR : Nat → Except KmErr ρ) (commitR : Nat → Except KmErr Bool) :
    ∀ (fuel attempt j : Nat) (e : KmErr), j < fuel →
      (∀ i, i < j → startR (attempt + i) = Except.ok () ∧
        (∃ r, editR (attempt + i) = Except.ok r) ∧
        commitR (attempt + i) = Except.ok false) →
      startR (attempt + j) = Except.ok () →
      editR (attempt + j) = Except.error e →
      (do_tx_go startR editR commitR attempt fuel).1 = Except.error e ∧
      TxEvent.abortCall ∈ (do_tx_go startR editR commitR attempt fuel).2 ∧
      (do_tx_go startR editR commitR attempt fuel).2.count
        TxEvent.editCall = j + 1 := by
  intro fuel
  induction fuel with
  | zero => intro attempt j e hj _ _ _; omega
  | succ fuel ih =>
      intro attempt j e hj hpre hsj hej
      cases j with
      | zero =>
          simp only [Nat.add_zero] at hsj hej
          refine ⟨?_, ?_, ?_⟩
          · simp [do_tx_go, hsj, hej]
          · simp [do_tx_go, hsj, hej]
          · simp only [do_tx_go, hsj, hej, count_edit_sea]
      | succ j =>
          obtain ⟨h0s, ⟨r0, h0e⟩, h0c⟩ := hpre 0 (Nat.succ_pos j)
          simp only [Nat.add_zero] at h0s h0e h0c
          have hpre' : ∀ i, i < j → startR (attempt + 1 + i) = Except.ok () ∧
              (∃ r, editR (attempt + 1 + i) = Except.ok r) ∧
              commitR (attempt + 1 + i) = Except.ok false := by
            intro i hi
            have := hpre (i + 1) (by omega)
            rwa [show attempt + (i + 1) = attempt + 1 + i by omega] at this
          have hsj' : startR (attempt + 1 + j) = Except.ok () := by
            rwa [show attempt + (j + 1) = attempt + 1 + j by omega] at hsj
          have hej' : editR (attempt + 1 + j) = Except.error e := by
            rwa [show attempt + (j + 1) = attempt + 1 + j by omega] at hej
          obtain ⟨r1, r2, r3⟩ := ih (attempt + 1) j e (by omega) hpre' hsj' hej'
          refine ⟨?_, ?_, ?_⟩
          · simp [do_tx_go, h0s, h0e, h0c, r1]
          · simp only [do_tx_go, h0s, h0e, h0c, List.mem_append]
            right
            exact r2
          · simp only [do_tx_go, h0s, h0e, h0c, List.count_append,
              count_edit_sec]
            omega

/-- C5: the transaction loop of every mutating key-management operation
attempts the body at most 16 times; when every attempt's commit reports a
conflict it fails with `TooManyTxRetries` after exactly 16 attempts; and
whenever the edit closure returns an error (all earlier attempts having
conflicted), the transaction is aborted, the error is surfaced, and no
further attempt is made. -/
theorem C5_tx_retry {ρ : Type} (startR : Nat → Except KmErr Unit)
    (editR : Nat → Except KmErr ρ) (commitR : Nat → Except KmErr Bool) :
    ((do_tx startR editR commitR).2.count TxEvent.editCall ≤ 16) ∧
    ((∀ i, startR i = Except.ok ()) →
     (∀ i, ∃ r, editR i = Except.ok r) →
     (∀ i, commitR i = Except.ok false) →
      (do_tx startR editR commitR).1
        = Except.error KmErr.tooManyTxRetries ∧
      (do_tx startR editR commitR).2.count TxEvent.editCall = 16) ∧
    (∀ (k : Nat) (e : KmErr), k < 16 →
      (∀ i, i < k → startR i = Except.ok () ∧
        (∃ r, editR i = Except.ok r) ∧ commitR i = Except.ok false) →
      startR k = Except.ok () →
      editR k = Except.error e →
      (do_tx startR editR commitR).1 = Except.error e ∧
      TxEvent.abortCall ∈ (do_tx startR editR commitR).2 ∧
      (do_tx startR editR commitR).2.count TxEvent.editCall = k + 1) := by
  refine ⟨do_tx_go_edit_count_le startR editR commitR 16 0, ?_, ?_⟩
  · intro hs he hc
    exact do_tx_go_all_conflict startR editR commitR hs he hc 16 0
  · intro k e hk hpre hsk hek
    have h0 : ∀ i, i < k → startR (0 + i) = Except.ok () ∧
        (∃ r, editR (0 + i) = Except.ok r) ∧
        commitR (0 + i) = Except.ok false := by
      intro i hi
      simpa using hpre i hi
    exact do_tx_go_edit_fails startR editR commitR 16 0 k e hk h0
      (by simpa using hsk) (by simpa using hek)

/-- Witness for C5: an always-conflicting storage reaches
`TooManyTxRetries` after exactly 16 attempts, and a storage whose first
edit fails aborts and surfaces the error after one attempt. -/
theorem C5_tx_retry_witness :
    ((do_tx (fun _ => Except.ok ()) (fun _ => (Except.ok 0 : Except KmErr Nat))
        (fun _ => Except.ok false)).1
      = Except.error KmErr.tooManyTxRetries ∧
     (do_tx (fun _ => Except.ok ()) (fun _ => (Except.ok 0 : Except KmErr Nat))
        (fun _ => Except.ok false)).2.count TxEvent.editCall = 16) ∧
    ((do_tx (fun _ => Except.ok ())
        (fun _ => (Except.error KmErr.kdfListNotExists : Except KmErr Nat))
        (fun _ => Except.ok false)).1
      = Except.error KmErr.kdfListNotExists ∧
     TxEvent.abortCall ∈ (do_tx (fun _ => Except.ok ())
        (fun _ => (Except.error KmErr.kdfListNotExists : Except KmErr Nat))
        (fun _ => Except.ok false)).2 ∧
     (do_tx (fun _ => Except.ok ())
        (fun _ => (Except.error KmErr.kdfListNotExists : Except KmErr Nat))
        (fun _ => Except.ok false)).2.count TxEvent.editCall = 0 + 1) :=
  ⟨(C5_tx_retry (fun _ => Except.ok ()) (fun _ => Except.ok 0)
      (fun _ => Except.ok false)).2.1
    (fun _ => rfl) (fun _ => ⟨0, rfl⟩) (fun _ => rfl),
   (C5_tx_retry (fun _ => Except.ok ())
      (fun _ => (Except.error KmErr.kdfListNotExists : Except KmErr Nat))
      (fun _ => Except.ok false)).2.2 0 KmErr.kdfListNotExists
    (by norm_num) (fun i hi => absurd hi (Nat.not_lt_zero i)) rfl rfl⟩

theorem buildNewChain_spec (chain : KeyChain) :
    ∀ (gs : List (String × Bytes)) (new_chain : KeyChain),
      buildNewChain chain gs = Except.ok new_chain →
      new_chain.keys.map Prod.fst = gs.map Prod.fst ∧
      ∀ g ik, (g, ik) ∈ new_chain.keys → KeyChain.key chain g = Except.ok ik := by
  intro gs
  induction gs with
  | nil =>
      intro new_chain h
      obtain rfl : ({ keys := [] } : KeyChain) = new_chain := by
        injection h
      simp
  | cons p rest ih =>
      intro new_chain h
      obtain ⟨g0, w0⟩ := p
      rw [buildNewChain] at h
      rcases hk : KeyChain.key chain g0 with e | ik0
      · rw [hk] at h; cases h
      · rw [hk] at h
        rcases hb : buildNewChain chain rest with e | c
        · rw [hb] at h; cases h
        · rw [hb] at h
          obtain rfl : ({ keys := (g0, ik0) :: c.keys } : KeyChain)
              = new_chain := by injection h
          obtain ⟨ih1, ih2⟩ := ih c hb
          constructor
          · simpa using ih1
          · intro g ik hm
            rcases List.mem_cons.mp hm with heq | hr
            · injection heq with hg hik
              subst hg
              subst hik
              exact hk
            · exact ih2 g ik hr

theorem buildNewChain_missing (chain : KeyChain) :
    ∀ gs : List (String × Bytes),
      (∃ g, g ∈ gs.map Prod.fst ∧ alGet chain.keys g = none) →
      ∃ g', buildNewChain chain gs
        = Except.error (KmErr.keyNotInGroup g') := by
  intro gs
  induction gs with
  | nil =>
      intro h
      obtain ⟨g, hm, _⟩ := h
      simp at hm
  | cons p rest ih =>
      intro h
      obtain ⟨g0, w0⟩ := p
      rcases hg : alGet chain.keys g0 with _ | ik0
      · refine ⟨g0, ?_⟩
        rw [buildNewChain]
        rw [show KeyChain.key chain g0
            = Except.error (KmErr.keyNotInGroup g0) by
          rw [KeyChain.key, hg]]
      · obtain ⟨g, hm, hnone⟩ := h
        have hgr : g ∈ rest.map Prod.fst := by
          rw [List.map_cons] at hm
          rcases List.mem_cons.mp hm with rfl | hr
          · rw [hg] at hnone; cases hnone
          · exact hr
        obtain ⟨g', hg'⟩ := ih ⟨g, hgr, hnone⟩
        refine ⟨g', ?_⟩
        rw [buildNewChain]
        rw [show KeyChain.key chain g0 = Except.ok ik0 by
          rw [KeyChain.key, hg]]
        rw [hg']

/-- C4: a successful `change_key` replaces the named entry with one that
preserves `created`, sets `updated = now`, keeps the prior `used`, and
carries exactly the old entry's group set, each group wrapping the
internal key the derivation chain holds for it; when the derivation chain
lacks some group of the old entry, `change_key` fails with
`KeyNotInGroup`; and any failing edit leaves the stored list untouched. -/
theorem C4_change_key (P : KdfPrims) (now : Nat) (newSalt : Bytes)
    (old_passphrase new_passphrase : Bytes) (name : Option String)
    (allow : Bool) (kdf : KdfList) :
    (∀ kdf', change_key_edit P now newSalt old_passphrase new_passphrase
        name allow kdf = Except.ok kdf' →
      ∃ real_name old_entry chain new_chain e',
        chkRealName kdf name = Except.ok real_name ∧
        alGet kdf.keys real_name = some old_entry ∧
        chkChain P old_passphrase old_entry (alRemove kdf.keys real_name)
          allow = Except.ok chain ∧
        buildNewChain chain old_entry.groups = Except.ok new_chain ∧
        e' = create_key P newSalt new_passphrase new_chain
          old_entry.created (some now) old_entry.used ∧
        kdf'.keys = alInsert (alRemove kdf.keys real_name) real_name e' ∧
        e'.created = old_entry.created ∧
        e'.updated = some now ∧
        e'.used = old_entry.used ∧
        e'.groups.map Prod.fst = old_entry.groups.map Prod.fst ∧
        e'.groups = new_chain.keys.map
          (fun g => (g.1, xorBytes (P.scrypt new_passphrase newSalt) g.2)) ∧
        (∀ g ik, (g, ik) ∈ new_chain.keys →
          KeyChain.key chain g = Except.ok ik)) ∧
    (∀ real_name old_entry chain,
      chkRealName kdf name = Except.ok real_name →
      alGet kdf.keys real_name = some old_entry →
      chkChain P old_passphrase old_entry (alRemove kdf.keys real_name)
        allow = Except.ok chain →
      (∃ g, g ∈ old_entry.groups.map Prod.fst ∧ alGet chain.keys g = none) →
      ∃ g', change_key_edit P now newSalt old_passphrase new_passphrase
        name allow kdf = Except.error (KmErr.keyNotInGroup g')) ∧
    (∀ (v newVer : Nat) (e : KmErr),
      change_key_edit P now newSalt old_passphrase new_passphrase
        name allow kdf = Except.error e →
      edit_kdflist (change_key_edit P now newSalt old_passphrase
          new_passphrase name allow)
        (some (v, kdf)) newVer = (Except.error e, some (v, kdf))) := by
  refine ⟨?_, ?_, ?_⟩
  · intro kdf' hsucc
    rw [change_key_edit] at hsucc
    rcases h1 : chkRealName kdf name with e1 | real_name
    · simp only [h1] at hsucc
      exact Except.noConfusion hsucc
    · simp only [h1] at hsucc
      rcases h2 : alGet kdf.keys real_name with _ | old_entry
      · simp only [h2] at hsucc
        exact Except.noConfusion hsucc
      · simp only [h2] at hsucc
        rcases h3 : chkChain P old_passphrase old_entry
            (alRemove kdf.keys real_name) allow with e3 | chain
        · simp only [h3] at hsucc
          exact Except.noConfusion hsucc
        · simp only [h3] at hsucc
          rcases h4 : buildNewChain chain old_entry.groups with e4 | new_chain
          · simp only [h4] at hsucc
            exact Except.noConfusion hsucc
          · simp only [h4, Except.ok.injEq] at hsucc
            subst hsucc
            obtain ⟨hfst, hmem⟩ := buildNewChain_spec chain
              old_entry.groups new_chain h4
            refine ⟨real_name, old_entry, chain, new_chain, _, rfl, h2, h3,
              h4, rfl, rfl, rfl, rfl, rfl, ?_, rfl, hmem⟩
            show (create_key P newSalt new_passphrase new_chain
              old_entry.created (some now)
              old_entry.used).groups.map Prod.fst
              = old_entry.groups.map Prod.fst
            rw [create_key]
            simp only [List.map_map]
            rw [show ((fun p => Prod.fst p) ∘
                (fun g => (g.1, xorBytes (P.scrypt new_passphrase newSalt)
                  g.2))) = fun p : String × Bytes => p.1 from rfl]
            exact hfst
  · intro real_name old_entry chain h1 h2 h3 hex
    obtain ⟨g', hg'⟩ := buildNewChain_missing chain old_entry.groups hex
    refine ⟨g', ?_⟩
    rw [change_key_edit]
    simp only [h1, h2, h3, hg']
  · intro v newVer e herr
    rw [edit_kdflist, herr]

/-- A group is referenced when some entry carries it (the code's
`kdflist.keys.values().any(|e| e.groups.contains_key(g))`). -/
def groupReferenced (keys : List (String × KdfEntry)) (g : String) : Bool :=
  keys.any (fun p => (alGet p.2.groups g).isSome)

theorem alGet_cons {α : Type} (k0 : String) (v0 : α)
    (rest : List (String × α)) (k : String) :
    alGet ((k0, v0) :: rest) k
      = if k0 == k then some v0 else alGet rest k := by
  simp only [alGet, List.find?_cons]
  cases h : (k0 == k) <;> simp [alGet]

theorem alGet_some_mem {α : Type} (l : List (String × α)) (k : String)
    (v : α) (h : alGet l k = some v) : (k, v) ∈ l := by
  induction l with
  | nil => simp [alGet] at h
  | cons p rest ih =>
      obtain ⟨k0, v0⟩ := p
      rw [alGet_cons] at h
      by_cases hk : (k0 == k) = true
      · rw [if_pos hk] at h
        injection h with hv
        subst hv
        obtain rfl : k0 = k := by simpa using hk
        exact List.mem_cons_self _ _
      · rw [if_neg hk] at h
        exact List.mem_cons_of_mem _ (ih h)

theorem mem_alRemove_of_ne {α : Type} (l : List (String × α)) (k : String)
    (p : String × α) (hm : p ∈ l) (hne : p.1 ≠ k) : p ∈ alRemove l k := by
  induction l with
  | nil => simp at hm
  | cons q rest ih =>
      obtain ⟨k0, v0⟩ := q
      rw [alRemove]
      by_cases hk : (k0 == k) = true
      · rw [if_pos hk]
        rcases List.mem_cons.mp hm with heq | hr
        · exfalso
          apply hne
          rw [heq]
          simpa using hk
        · exact hr
      · rw [if_neg hk]
        rcases List.mem_cons.mp hm with heq | hr
        · rw [heq]; exact List.mem_cons_self _ _
        · exact List.mem_cons_of_mem _ (ih hr)

theorem mem_alInsert_of_ne {α : Type} (l : List (String × α)) (k : String)
    (v : α) (p : String × α) (hm : p ∈ l) (hne : p.1 ≠ k) :
    p ∈ alInsert l k v := by
  induction l with
  | nil => simp at hm
  | cons q rest ih =>
      obtain ⟨k0, v0⟩ := q
      rw [alInsert]
      by_cases hk : (k0 == k) = true
      · rw [if_pos hk]
        rcases List.mem_cons.mp hm with heq | hr
        · exfalso
          apply hne
          rw [heq]
          simpa using hk
        · exact List.mem_cons_of_mem _ hr
      · rw [if_neg hk]
        rcases List.mem_cons.mp hm with heq | hr
        · rw [heq]; exact List.mem_cons_self _ _
        · exact List.mem_cons_of_mem _ (ih hr)

theorem mem_alInsert_self {α : Type} (l : List (String × α)) (k : String)
    (v : α) : (k, v) ∈ alInsert l k v := by
  induction l with
  | nil => simp [alInsert]
  | cons q rest ih =>
      obtain ⟨k0, v0⟩ := q
      rw [alInsert]
      by_cases hk : (k0 == k) = true
      · rw [if_pos hk]; exact List.mem_cons_self _ _
      · rw [if_neg hk]; exact List.mem_cons_of_mem _ ih

theorem alGet_of_mem_nodup {α : Type} (l : List (String × α))
    (hnd : (l.map Prod.fst).Nodup) (p : String × α) (hm : p ∈ l) :
    alGet l p.1 = some p.2 := by
  induction l with
  | nil => simp at hm
  | cons q rest ih =>
      obtain ⟨k0, v0⟩ := q
      rw [List.map_cons, List.nodup_cons] at hnd
      rcases List.mem_cons.mp hm with heq | hr
      · subst heq
        rw [alGet_cons]
        simp
      · rw [alGet_cons]
        by_cases hk : (k0 == p.1) = true
        · exfalso
          apply hnd.1
          have hmm : p.1 ∈ rest.map Prod.fst := List.mem_map_of_mem _ hr
          rwa [show k0 = p.1 from by simpa using hk]
        · rw [if_neg hk]
          exact ih hnd.2 hr

theorem alGet_alRemove_ne {α : Type} (l : List (String × α)) (k g : String)
    (hne : g ≠ k) : alGet (alRemove l k) g = alGet l g := by
  induction l with
  | nil => rfl
  | cons q rest ih =>
      obtain ⟨k0, v0⟩ := q
      rw [alRemove]
      by_cases hk : (k0 == k) = true
      · obtain rfl : k0 = k := by simpa using hk
        rw [if_pos (by simp), alGet_cons,
          if_neg (by simp; exact fun h => hne h.symm)]
      · rw [if_neg hk, alGet_cons, alGet_cons]
        by_cases hg : (k0 == g) = true
        · rw [if_pos hg, if_pos hg]
        · rw [if_neg hg, if_neg hg, ih]

theorem dgRemove_alGet_not_removed :
    ∀ (names : List String) (e e' : KdfEntry),
      dgRemove names e = Except.ok e' → ∀ g, g ∉ names →
      alGet e'.groups g = alGet e.groups g := by
  intro names
  induction names with
  | nil =>
      intro e e' h g _
      injection h with h
      rw [h]
  | cons nm rest ih =>
      intro e e' h g hg
      rw [dgRemove] at h
      by_cases hs : (alGet e.groups nm).isSome = true
      · rw [if_pos hs] at h
        have hne : g ≠ nm := fun hh => hg (hh ▸ List.mem_cons_self _ _)
        rw [ih _ _ h g (fun hr => hg (List.mem_cons_of_mem _ hr))]
        exact alGet_alRemove_ne _ _ _ hne
      · rw [if_neg hs] at h
        cases h

theorem destroyOne_length (nm : String) :
    ∀ keys, ((destroyOne nm keys).2).length = keys.length := by
  intro keys
  induction keys with
  | nil => rfl
  | cons p rest ih => simp [destroyOne, ih]

theorem dgAll_length :
    ∀ (names : List String) keys keys',
      dgAll names keys = Except.ok keys' → keys'.length = keys.length := by
  intro names
  induction names with
  | nil =>
      intro keys keys' h
      injection h with h
      rw [h]
  | cons nm rest ih =>
      intro keys keys' h
      simp only [dgAll] at h
      by_cases hf : (destroyOne nm keys).1 = true
      · rw [if_pos hf] at h
        rw [ih _ _ h, destroyOne_length]
      · rw [if_neg hf] at h
        cases h

theorem alInsert_ne_nil {α : Type} (l : List (String × α)) (k : String)
    (v : α) : alInsert l k v ≠ [] := by
  cases l with
  | nil => simp [alInsert]
  | cons q rest =>
      obtain ⟨k0, v0⟩ := q
      rw [alInsert]
      by_cases hk : (k0 == k) = true
      · rw [if_pos hk]; simp
      · rw [if_neg hk]; simp

theorem cgLoop_ok_ne_nil (P : KdfPrims) (pass : Bytes)
    (names : List String) (newKeys : String → Bytes) :
    ∀ keys keys', cgLoop P pass names newKeys keys = Except.ok keys' →
      keys' ≠ [] := by
  intro keys
  induction keys with
  | nil => intro keys' h; cases h
  | cons p rest ih =>
      intro keys' h
      obtain ⟨n, e⟩ := p
      rw [cgLoop] at h
      rcases htd : try_derive_key_single P pass e with _ | kc
      · simp only [htd] at h
        rcases hr : cgLoop P pass names newKeys rest with er | rest'
        · simp only [hr] at h
          exact Except.noConfusion h
        · simp only [hr] at h
          injection h with h
          rw [← h]
          simp
      · simp only [htd] at h
        injection h with h
        rw [← h]
        simp

theorem agLoop_ok_ne_nil (P : KdfPrims) (pass : Bytes)
    (names : List String) (src_chain : KeyChain) :
    ∀ keys keys', agLoop P pass names src_chain keys = Except.ok keys' →
      keys' ≠ [] := by
  intro keys
  induction keys with
  | nil => intro keys' h; cases h
  | cons p rest ih =>
      intro keys' h
      obtain ⟨n, e⟩ := p
      rw [agLoop] at h
      rcases htd : try_derive_key_single P pass e with _ | kc
      · simp only [htd] at h
        rcases hr : agLoop P pass names src_chain rest with er | rest'
        · simp only [hr] at h
          exact Except.noConfusion h
        · simp only [hr] at h
          injection h with h
          rw [← h]
          simp
      · simp only [htd] at h
        rcases hi : agInsert src_chain names kc with er | kc'
        · simp only [hi] at h
          exact Except.noConfusion h
        · simp only [hi] at h
          injection h with h
          rw [← h]
          simp

/-- C6: on a non-empty registry with distinct entry names, no successful
key-management operation empties the `keys` map; a successful `del_key` or
`disassoc_group` leaves every group that was referenced before still
referenced; and in the violating cases `del_key` refuses with
`WouldRemoveLastKdfEntry` or `WouldDisassocLastKeyFromGroup` and
`disassoc_group` refuses with `WouldDisassocLastKeyFromGroup`. -/
theorem C6_no_lockout (P : KdfPrims) (now : Nat) (newSalt : Bytes)
    (op np : Bytes) (nm key : String) (name : Option String) (allow : Bool)
    (names : List String) (newKeys : String → Bytes) (kdf : KdfList)
    (hne : kdf.keys ≠ [])
    (hnd : (kdf.keys.map Prod.fst).Nodup) :
    (∀ kdf', add_key_edit P now newSalt op np nm kdf = Except.ok kdf' →
      kdf'.keys ≠ []) ∧
    (∀ kdf', del_key_edit nm kdf = Except.ok kdf' → kdf'.keys ≠ []) ∧
    (∀ kdf', change_key_edit P now newSalt op np name allow kdf
        = Except.ok kdf' → kdf'.keys ≠ []) ∧
    (∀ kdf', create_group_edit P op names newKeys kdf = Except.ok kdf' →
      kdf'.keys ≠ []) ∧
    (∀ kdf', assoc_group_edit P op np names kdf = Except.ok kdf' →
      kdf'.keys ≠ []) ∧
    (∀ kdf', disassoc_group_edit key names kdf = Except.ok kdf' →
      kdf'.keys ≠ []) ∧
    (∀ kdf', destroy_group_edit names kdf = Except.ok kdf' →
      kdf'.keys ≠ []) ∧
    (∀ kdf', del_key_edit nm kdf = Except.ok kdf' →
      ∀ g, groupReferenced kdf.keys g = true →
        groupReferenced kdf'.keys g = true) ∧
    (∀ kdf', disassoc_group_edit key names kdf = Except.ok kdf' →
      ∀ g, groupReferenced kdf.keys g = true →
        groupReferenced kdf'.keys g = true) ∧
    (∀ e, alGet kdf.keys nm = some e → alRemove kdf.keys nm = [] →
      del_key_edit nm kdf = Except.error KmErr.wouldRemoveLastKdfEntry) ∧
    (∀ e, alGet kdf.keys nm = some e → alRemove kdf.keys nm ≠ [] →
      (∃ gw, gw ∈ e.groups ∧
        groupReferenced (alRemove kdf.keys nm) gw.1 = false) →
      ∃ g', del_key_edit nm kdf
        = Except.error (KmErr.wouldDisassocLastKeyFromGroup nm g')) ∧
    (∀ entry entry',
      names.find? (fun n => n == GROUP_EVERYONE) = none →
      alGet kdf.keys key = some entry →
      dgRemove names entry = Except.ok entry' →
      (∃ n, n ∈ names ∧
        groupReferenced (alInsert kdf.keys key entry') n = false) →
      ∃ n', disassoc_group_edit key names kdf
        = Except.error (KmErr.wouldDisassocLastKeyFromGroup key n')) := by
  refine ⟨?_, ?_, ?_, ?_, ?_, ?_, ?_, ?_, ?_, ?_, ?_, ?_⟩
  · -- add_key
    intro kdf' h
    rw [add_key_edit] at h
    rcases h1 : try_derive_key P op kdf.keys with _ | kc
    · simp only [h1] at h; exact Except.noConfusion h
    · simp only [h1] at h
      by_cases h2 : (alGet kdf.keys nm).isSome = true
      · rw [if_pos h2] at h; exact Except.noConfusion h
      · rw [if_neg h2] at h
        simp only [Except.ok.injEq] at h
        subst h
        exact alInsert_ne_nil _ _ _
  · -- del_key
    intro kdf' h
    rw [del_key_edit] at h
    rcases h1 : alGet kdf.keys nm with _ | old_entry
    · simp only [h1] at h; exact Except.noConfusion h
    · simp only [h1] at h
      by_cases h2 : (alRemove kdf.keys nm).isEmpty = true
      · rw [if_pos h2] at h; exact Except.noConfusion h
      · rw [if_neg h2] at h
        rcases h3 : old_entry.groups.find? (fun g =>
            !((alRemove kdf.keys nm).any
              (fun p => (alGet p.2.groups g.1).isSome))) with _ | gp
        · simp only [h3] at h
          simp only [Except.ok.injEq] at h
          subst h
          intro hcon
          apply h2
          rw [show alRemove kdf.keys nm = [] from hcon]
          rfl
        · simp only [h3] at h; exact Except.noConfusion h
  · -- change_key
    intro kdf' h
    rw [change_key_edit] at h
    rcases h1 : chkRealName kdf name with e1 | real_name
    · simp only [h1] at h; exact Except.noConfusion h
    · simp only [h1] at h
      rcases h2 : alGet kdf.keys real_name with _ | old_entry
      · simp only [h2] at h; exact Except.noConfusion h
      · simp only [h2] at h
        rcases h3 : chkChain P op old_entry (alRemove kdf.keys real_name)
            allow with e3 | chain
        · simp only [h3] at h; exact Except.noConfusion h
        · simp only [h3] at h
          rcases h4 : buildNewChain chain old_entry.groups with e4 | new_chain
          · simp only [h4] at h; exact Except.noConfusion h
          · simp only [h4, Except.ok.injEq] at h
            subst h
            exact alInsert_ne_nil _ _ _
  · -- create_group
    intro kdf' h
    rw [create_group_edit] at h
    rcases h1 : names.find? (fun nm2 =>
        kdf.keys.any (fun p => (alGet p.2.groups nm2).isSome)) with _ | n1
    · simp only [h1] at h
      rcases h2 : cgLoop P op names newKeys kdf.keys with e2 | keys'
      · simp only [h2] at h; exact Except.noConfusion h
      · simp only [h2, Except.ok.injEq] at h
        subst h
        exact cgLoop_ok_ne_nil P op names newKeys kdf.keys keys' h2
    · simp only [h1] at h; exact Except.noConfusion h
  · -- assoc_group
    intro kdf' h
    rw [assoc_group_edit] at h
    rcases h1 : try_derive_key P op kdf.keys with _ | src_chain
    · simp only [h1] at h; exact Except.noConfusion h
    · simp only [h1] at h
      rcases h2 : agLoop P np names src_chain kdf.keys with e2 | keys'
      · simp only [h2] at h; exact Except.noConfusion h
      · simp only [h2, Except.ok.injEq] at h
        subst h
        exact agLoop_ok_ne_nil P np names src_chain kdf.keys keys' h2
  · -- disassoc_group
    intro kdf' h
    rw [disassoc_group_edit] at h
    rcases h0 : names.find? (fun n => n == GROUP_EVERYONE) with _ | n0
    · simp only [h0] at h
      rcases h1 : alGet kdf.keys key with _ | entry
      · simp only [h1] at h; exact Except.noConfusion h
      · simp only [h1] at h
        rcases h2 : dgRemove names entry with e2 | entry'
        · simp only [h2] at h; exact Except.noConfusion h
        · simp only [h2] at h
          rcases h3 : names.find? (fun nm2 =>
              !((alInsert kdf.keys key entry').any
                (fun p => (alGet p.2.groups nm2).isSome))) with _ | n3
          · simp only [h3, Except.ok.injEq] at h
            subst h
            exact alInsert_ne_nil _ _ _
          · simp only [h3] at h; exact Except.noConfusion h
    · simp only [h0] at h; exact Except.noConfusion h
  · -- destroy_group
    intro kdf' h
    rw [destroy_group_edit] at h
    rcases h1 : names.find? (fun n => n == GROUP_EVERYONE || n == GROUP_ROOT)
        with _ | n1
    · simp only [h1] at h
      rcases h2 : dgAll names kdf.keys with e2 | keys'
      · simp only [h2] at h; exact Except.noConfusion h
      · simp only [h2, Except.ok.injEq] at h
        subst h
        intro hcon
        apply hne
        have hlen := dgAll_length names kdf.keys keys' h2
        have hcon' : keys' = [] := hcon
        have : kdf.keys.length = 0 := by
          rw [← hlen, hcon']
          rfl
        exact List.eq_nil_of_length_eq_zero this
    · simp only [h1] at h; exact Except.noConfusion h
  · -- del_key preserves referenced groups
    intro kdf' h g hg
    rw [del_key_edit] at h
    rcases h1 : alGet kdf.keys nm with _ | old_entry
    · simp only [h1] at h; exact Except.noConfusion h
    · simp only [h1] at h
      by_cases h2 : (alRemove kdf.keys nm).isEmpty = true
      · rw [if_pos h2] at h; exact Except.noConfusion h
      · rw [if_neg h2] at h
        rcases h3 : old_entry.groups.find? (fun gw =>
            !((alRemove kdf.keys nm).any
              (fun p => (alGet p.2.groups gw.1).isSome))) with _ | gp
        · simp only [h3, Except.ok.injEq] at h
          subst h
          obtain ⟨p, hpmem, hpcar⟩ := List.any_eq_true.mp hg
          by_cases hpn : p.1 = nm
          · have hget : alGet kdf.keys p.1 = some p.2 :=
              alGet_of_mem_nodup kdf.keys hnd p hpmem
            rw [hpn, h1] at hget
            injection hget with hget
            obtain ⟨w, hw⟩ := Option.isSome_iff_exists.mp hpcar
            rw [← hget] at hw
            have hmemg : (g, w) ∈ old_entry.groups := alGet_some_mem _ _ _ hw
            have hfind := List.find?_eq_none.mp h3 (g, w) hmemg
            show groupReferenced (alRemove kdf.keys nm) g = true
            rw [groupReferenced]
            cases hXc : (alRemove kdf.keys nm).any
                (fun p => (alGet p.2.groups g).isSome) with
            | true => rfl
            | false =>
                exfalso
                apply hfind
                show (!((alRemove kdf.keys nm).any
                  (fun p => (alGet p.2.groups g).isSome))) = true
                rw [hXc]
                rfl
          · exact List.any_eq_true.mpr
              ⟨p, mem_alRemove_of_ne _ _ _ hpmem hpn, hpcar⟩
        · simp only [h3] at h; exact Except.noConfusion h
  · -- disassoc_group preserves referenced groups
    intro kdf' h g hg
    rw [disassoc_group_edit] at h
    rcases h0 : names.find? (fun n => n == GROUP_EVERYONE) with _ | n0
    · simp only [h0] at h
      rcases h1 : alGet kdf.keys key with _ | entry
      · simp only [h1] at h; exact Except.noConfusion h
      · simp only [h1] at h
        rcases h2 : dgRemove names entry with e2 | entry'
        · simp only [h2] at h; exact Except.noConfusion h
        · simp only [h2] at h
          rcases h3 : names.find? (fun nm2 =>
              !((alInsert kdf.keys key entry').any
                (fun p => (alGet p.2.groups nm2).isSome))) with _ | n3
          · simp only [h3, Except.ok.injEq] at h
            subst h
            obtain ⟨p, hpmem, hpcar⟩ := List.any_eq_true.mp hg
            by_cases hpk : p.1 = key
            · have hget : alGet kdf.keys p.1 = some p.2 :=
                alGet_of_mem_nodup kdf.keys hnd p hpmem
              rw [hpk, h1] at hget
              injection hget with hget
              by_cases hgn : g ∈ names
              · have hfind := List.find?_eq_none.mp h3 g hgn
                show groupReferenced (alInsert kdf.keys key entry') g = true
                rw [groupReferenced]
                cases hXc : (alInsert kdf.keys key entry').any
                    (fun p => (alGet p.2.groups g).isSome) with
                | true => rfl
                | false =>
                    exfalso
                    apply hfind
                    show (!((alInsert kdf.keys key entry').any
                      (fun p => (alGet p.2.groups g).isSome))) = true
                    rw [hXc]
                    rfl
              · have hpres := dgRemove_alGet_not_removed names entry entry'
                  h2 g hgn
                have hcar' : (alGet entry'.groups g).isSome = true := by
                  rw [hpres, hget]
                  exact hpcar
                exact List.any_eq_true.mpr
                  ⟨(key, entry'), mem_alInsert_self _ _ _, hcar'⟩
            · exact List.any_eq_true.mpr
                ⟨p, mem_alInsert_of_ne _ _ _ _ hpmem hpk, hpcar⟩
          · simp only [h3] at h; exact Except.noConfusion h
    · simp only [h0] at h; exact Except.noConfusion h
  · -- del_key refuses to empty the registry
    intro e h1 h2
    rw [del_key_edit]
    simp only [h1]
    rw [if_pos (by rw [h2]; rfl)]
  · -- del_key refuses to orphan a group
    intro e h1 h2 hex
    obtain ⟨gw, hgmem, hgorph⟩ := hex
    rcases h3 : e.groups.find? (fun gw2 =>
        !((alRemove kdf.keys nm).any
          (fun p => (alGet p.2.groups gw2.1).isSome))) with _ | gp
    · exfalso
      have := List.find?_eq_none.mp h3 gw hgmem
      apply this
      rw [groupReferenced] at hgorph
      simp only [hgorph]
      rfl
    · refine ⟨gp.1, ?_⟩
      rw [del_key_edit]
      simp only [h1]
      rw [if_neg (by
        intro hcon
        apply h2
        cases hll : alRemove kdf.keys nm with
        | nil => rfl
        | cons a l => rw [hll] at hcon; exact Bool.noConfusion hcon)]
      simp only [h3]
  · -- disassoc_group refuses to orphan a group
    intro entry entry' h0 h1 h2 hex
    obtain ⟨n, hnmem, hnorph⟩ := hex
    rcases h3 : names.find? (fun nm2 =>
        !((alInsert kdf.keys key entry').any
          (fun p => (alGet p.2.groups nm2).isSome))) with _ | n3
    · exfalso
      have := List.find?_eq_none.mp h3 n hnmem
      apply this
      rw [groupReferenced] at hnorph
      simp only [hnorph]
      rfl
    · refine ⟨n3, ?_⟩
      rw [disassoc_group_edit]
      simp only [h0, h1, h2, h3]

/-- Concrete KDF primitives for witnesses: derivation returns the
passphrase, the hash is the identity. -/
def wPrims : KdfPrims := { scrypt := fun pass _ => pass, sha3 := fun l => l }

/-- Witness entry unlocked by passphrase `[10]`, carrying `everyone`
(internal key `[3]`, wrap `[9]`). -/
def wEntryA : KdfEntry :=
  { created := 1, updated := none, used := some 5,
    algorithm := "scrypt-18-8-1", salt := [0], hash := [10],
    groups := [("everyone", [9])] }

/-- Replacement of `wEntryA` after `change_key` to passphrase `[11]` at
time 7. -/
def wEntryA' : KdfEntry :=
  { created := 1, updated := some 7, used := some 5,
    algorithm := "scrypt-18-8-1", salt := [0], hash := [11],
    groups := [("everyone", [8])] }

/-- Witness entry unlocked by `[10]`, carrying `everyone` and `extra`
(internal keys `[3]` and `[5]`). -/
def wEntryB : KdfEntry :=
  { created := 2, updated := none, used := none,
    algorithm := "scrypt-18-8-1", salt := [0], hash := [10],
    groups := [("everyone", [9]), ("extra", [15])] }

/-- Witness entry unlocked by `[20]`, carrying only `everyone`. -/
def wEntryC : KdfEntry :=
  { created := 3, updated := none, used := none,
    algorithm := "scrypt-18-8-1", salt := [0], hash := [20],
    groups := [("everyone", [23])] }

/-- Witness entry unlocked by `[20]`, carrying `everyone` and `extra`. -/
def wEntryD : KdfEntry :=
  { created := 4, updated := none, used := none,
    algorithm := "scrypt-18-8-1", salt := [0], hash := [20],
    groups := [("everyone", [23]), ("extra", [17])] }

/-- Entry added by `add_key` with passphrase `[11]` at time 7. -/
def wEntryNew : KdfEntry :=
  { created := 7, updated := none, used := none,
    algorithm := "scrypt-18-8-1", salt := [0], hash := [11],
    groups := [("everyone", [8])] }

/-- `wEntryA` after `create_group` of `newgrp` (fresh internal key
`[7]`). -/
def wEntryACg : KdfEntry :=
  { created := 1, updated := none, used := some 5,
    algorithm := "scrypt-18-8-1", salt := [0], hash := [10],
    groups := [("everyone", [9]), ("newgrp", [13])] }

/-- `wEntryC` after `assoc_group` of `extra` (internal key `[5]`). -/
def wEntryCAg : KdfEntry :=
  { created := 3, updated := none, used := none,
    algorithm := "scrypt-18-8-1", salt := [0], hash := [20],
    groups := [("everyone", [23]), ("extra", [17])] }

/-- `wEntryB` with `extra` removed. -/
def wEntryBd : KdfEntry :=
  { created := 2, updated := none, used := none,
    algorithm := "scrypt-18-8-1", salt := [0], hash := [10],
    groups := [("everyone", [9])] }

/-- `wEntryD` with `extra` removed. -/
def wEntryDd : KdfEntry :=
  { created := 4, updated := none, used := none,
    algorithm := "scrypt-18-8-1", salt := [0], hash := [20],
    groups := [("everyone", [23])] }

/-- One-entry witness registry. -/
def wKdfA : KdfList := { keys := [("a", wEntryA)] }

/-- Registry where only entry `b` carries group `extra`. -/
def wKdfB : KdfList := { keys := [("b", wEntryB), ("c", wEntryC)] }

/-- Registry whose two entries both carry (only) `everyone`. -/
def wKdfE : KdfList := { keys := [("a", wEntryA), ("c", wEntryC)] }

/-- Registry whose two entries both carry `everyone` and `extra`. -/
def wKdfF : KdfList := { keys := [("b", wEntryB), ("d", wEntryD)] }

/-- Witness for C4: a successful `change_key` on a one-entry registry,
the `KeyNotInGroup` refusal when the chain derived through the other
entry lacks a group of the edited entry, and the untouched stored list
on that failure. -/
theorem C4_change_key_witness :
    (∃ real_name old_entry chain new_chain e',
      chkRealName wKdfA (some "a") = Except.ok real_name ∧
      alGet wKdfA.keys real_name = some old_entry ∧
      chkChain wPrims [10] old_entry (alRemove wKdfA.keys real_name) false
        = Except.ok chain ∧
      buildNewChain chain old_entry.groups = Except.ok new_chain ∧
      e' = create_key wPrims [0] [11] new_chain
        old_entry.created (some 7) old_entry.used ∧
      (KdfList.mk [("a", wEntryA')]).keys
        = alInsert (alRemove wKdfA.keys real_name) real_name e' ∧
      e'.created = old_entry.created ∧
      e'.updated = some 7 ∧
      e'.used = old_entry.used ∧
      e'.groups.map Prod.fst = old_entry.groups.map Prod.fst ∧
      e'.groups = new_chain.keys.map
        (fun g => (g.1, xorBytes (wPrims.scrypt [11] [0]) g.2)) ∧
      (∀ g ik, (g, ik) ∈ new_chain.keys →
        KeyChain.key chain g = Except.ok ik)) ∧
    (∃ g', change_key_edit wPrims 7 [0] [20] [11] (some "b") true wKdfB
      = Except.error (KmErr.keyNotInGroup g')) ∧
    edit_kdflist (change_key_edit wPrims 7 [0] [20] [11] (some "b") true)
      (some (0, wKdfB)) 42
      = (Except.error (KmErr.keyNotInGroup "extra"), some (0, wKdfB)) := by
  refine ⟨?_, ?_, ?_⟩
  · exact (C4_change_key wPrims 7 [0] [10] [11] (some "a") false wKdfA).1
      (KdfList.mk [("a", wEntryA')]) (by decide)
  · exact (C4_change_key wPrims 7 [0] [20] [11] (some "b") true wKdfB).2.1
      "b" wEntryB (KeyChain.mk [("everyone", [3])]) (by decide) (by decide)
      (by decide) ⟨"extra", by decide, by decide⟩
  · exact (C4_change_key wPrims 7 [0] [20] [11] (some "b") true wKdfB).2.2
      0 42 (KmErr.keyNotInGroup "extra") (by decide)

/-- Witness for C6 over the concrete registries: every operation's
successful result is non-empty, `del_key`/`disassoc_group` keep the
witnessed groups referenced, and the three refusals fire. -/
theorem C6_no_lockout_witness :
    ((KdfList.mk [("a", wEntryA), ("new", wEntryNew)]).keys ≠ []) ∧
    ((KdfList.mk [("c", wEntryC)]).keys ≠ []) ∧
    ((KdfList.mk [("a", wEntryA')]).keys ≠ []) ∧
    ((KdfList.mk [("a", wEntryACg)]).keys ≠ []) ∧
    ((KdfList.mk [("b", wEntryB), ("c", wEntryCAg)]).keys ≠ []) ∧
    ((KdfList.mk [("b", wEntryBd), ("d", wEntryD)]).keys ≠ []) ∧
    ((KdfList.mk [("b", wEntryBd), ("d", wEntryDd)]).keys ≠ []) ∧
    (groupReferenced (KdfList.mk [("c", wEntryC)]).keys "everyone"
      = true) ∧
    (groupReferenced (KdfList.mk [("b", wEntryBd), ("d", wEntryD)]).keys
      "extra" = true) ∧
    (del_key_edit "a" wKdfA = Except.error KmErr.wouldRemoveLastKdfEntry) ∧
    (∃ g', del_key_edit "b" wKdfB
      = Except.error (KmErr.wouldDisassocLastKeyFromGroup "b" g')) ∧
    (∃ n', disassoc_group_edit "b" ["extra"] wKdfB
      = Except.error (KmErr.wouldDisassocLastKeyFromGroup "b" n')) := by
  refine ⟨?_, ?_, ?_, ?_, ?_, ?_, ?_, ?_, ?_, ?_, ?_, ?_⟩
  · exact (C6_no_lockout wPrims 7 [0] [10] [11] "new" "b" (some "a") false
      ["newgrp"] (fun _ => [7]) wKdfA (by decide) (by decide)).1
      (KdfList.mk [("a", wEntryA), ("new", wEntryNew)]) (by decide)
  · exact (C6_no_lockout wPrims 7 [0] [10] [11] "a" "b" (some "a") false
      ["newgrp"] (fun _ => [7]) wKdfE (by decide) (by decide)).2.1
      (KdfList.mk [("c", wEntryC)]) (by decide)
  · exact (C6_no_lockout wPrims 7 [0] [10] [11] "new" "b" (some "a") false
      ["newgrp"] (fun _ => [7]) wKdfA (by decide) (by decide)).2.2.1
      (KdfList.mk [("a", wEntryA')]) (by decide)
  · exact (C6_no_lockout wPrims 7 [0] [10] [11] "new" "b" (some "a") false
      ["newgrp"] (fun _ => [7]) wKdfA (by decide) (by decide)).2.2.2.1
      (KdfList.mk [("a", wEntryACg)]) (by decide)
  · exact (C6_no_lockout wPrims 7 [0] [10] [20] "b" "b" (some "b") false
      ["extra"] (fun _ => [7]) wKdfB (by decide) (by decide)).2.2.2.2.1
      (KdfList.mk [("b", wEntryB), ("c", wEntryCAg)]) (by decide)
  · exact (C6_no_lockout wPrims 7 [0] [10] [20] "b" "b" (some "b") false
      ["extra"] (fun _ => [7]) wKdfF (by decide) (by decide)).2.2.2.2.2.1
      (KdfList.mk [("b", wEntryBd), ("d", wEntryD)]) (by decide)
  · exact (C6_no_lockout wPrims 7 [0] [10] [20] "b" "b" (some "b") false
      ["extra"] (fun _ => [7]) wKdfF (by decide) (by decide)).2.2.2.2.2.2.1
      (KdfList.mk [("b", wEntryBd), ("d", wEntryDd)]) (by decide)
  · exact (C6_no_lockout wPrims 7 [0] [10] [11] "a" "b" (some "a") false
      ["newgrp"] (fun _ => [7]) wKdfE (by decide)
      (by decide)).2.2.2.2.2.2.2.1
      (KdfList.mk [("c", wEntryC)]) (by decide) "everyone" (by decide)
  · exact (C6_no_lockout wPrims 7 [0] [10] [20] "b" "b" (some "b") false
      ["extra"] (fun _ => [7]) wKdfF (by decide)
      (by decide)).2.2.2.2.2.2.2.2.1
      (KdfList.mk [("b", wEntryBd), ("d", wEntryD)]) (by decide)
      "extra" (by decide)
  · exact (C6_no_lockout wPrims 7 [0] [10] [11] "a" "b" (some "a") false
      ["newgrp"] (fun _ => [7]) wKdfA (by decide)
      (by decide)).2.2.2.2.2.2.2.2.2.1
      wEntryA (by decide) (by decide)
  · exact (C6_no_lockout wPrims 7 [0] [10] [20] "b" "b" (some "b") false
      ["extra"] (fun _ => [7]) wKdfB (by decide)
      (by decide)).2.2.2.2.2.2.2.2.2.2.1
      wEntryB (by decide) (by decide)
      ⟨("extra", [15]), by decide, by decide⟩
  · exact (C6_no_lockout wPrims 7 [0] [10] [20] "b" "b" (some "b") false
      ["extra"] (fun _ => [7]) wKdfB (by decide)
      (by decide)).2.2.2.2.2.2.2.2.2.2.2
      wEntryB wEntryBd (by decide) (by decide) (by decide)
      ⟨"extra", by decide, by decide⟩

end Ensync
